import Mathlib

/-!
# fen-printer

A shallow embedding of `fen-printer.c` and a verification of its specification.

A C `char` is modelled by a `Char` whose code is a byte; text written to the
standard output is a `List Char`; an `int` is an `Int`.  An access outside the
72-byte buffer is undefined behaviour in C and is modelled by a `Fault`.
-/

namespace FenPrinter

/-! ## Results -/

/-- Ways in which the embedded program can leave defined behaviour.
`outOfBounds k` is an access at index `k` outside the indexed object;
`outOfFuel` is the exhaustion of the iteration budget of the embedding of the
scanner loop (shown below never to happen). -/
inductive Fault where
  | outOfBounds (index : Int)
  | outOfFuel
  deriving DecidableEq, Repr

deriving instance DecidableEq for Except

/-! ## The C library functions the program calls ("C" locale) -/

/-- The value `fgetc` returns at end of file. -/
def EOF : Int := -1

/-- Conversion of an `int` to a `char`, as in `c = fgetc(file)`: the low 8 bits. -/
def toChar (x : Int) : Char := Char.ofNat (x % 2 ^ 8).toNat

/-- `fgetc` on a stream given by the characters still to be read: the next byte as a
non-negative `int`, or `EOF`; and the stream after the call. -/
def fgetc (file : List Char) : Int × List Char :=
  match file with
  | [] => (EOF, [])
  | c :: rest => ((c.toNat : Int), rest)

/-- `isupper` in the "C" locale. -/
def isupper (c : Char) : Bool := decide (65 ≤ c.toNat ∧ c.toNat ≤ 90)

/-- `islower` in the "C" locale. -/
def islower (c : Char) : Bool := decide (97 ≤ c.toNat ∧ c.toNat ≤ 122)

/-- `isalpha` in the "C" locale. -/
def isalpha (c : Char) : Bool := isupper c || islower c

/-- `isdigit`. -/
def isdigit (c : Char) : Bool := decide (48 ≤ c.toNat ∧ c.toNat ≤ 57)

/-- `isspace` in the "C" locale: space, and `\t \n \v \f \r`. -/
def isspace (c : Char) : Bool := decide (c.toNat = 32 ∨ (9 ≤ c.toNat ∧ c.toNat ≤ 13))

/-- `toupper` in the "C" locale. -/
def toupper (c : Char) : Char := if islower c then Char.ofNat (c.toNat - 32) else c

/-- `strlen` of a C string given by its characters before the terminator. -/
def strlen (s : List Char) : Nat := s.length

/-- `strcmp` of two C strings given by their characters before the terminator:
zero exactly when they are equal, otherwise the difference of the first two
bytes that differ (the terminator counting as 0). -/
def strcmp : List Char → List Char → Int
  | [], [] => 0
  | [], b :: _ => 0 - (b.toNat : Int)
  | a :: _, [] => (a.toNat : Int)
  | a :: s, b :: t => if a = b then strcmp s t else (a.toNat : Int) - (b.toNat : Int)

/-- The digit-accumulating loop of `atoi`. -/
def atoiDigits : List Char → Int → Int
  | [], acc => acc
  | c :: rest, acc => if isdigit c then atoiDigits rest (acc * 10 + ((c.toNat : Int) - 48)) else acc

/-- `atoi` of a C string: leading white space, an optional sign, then the longest
run of decimal digits. -/
def atoi (s : List Char) : Int :=
  match s.dropWhile isspace with
  | '-' :: rest => 0 - atoiDigits rest 0
  | '+' :: rest => atoiDigits rest 0
  | t => atoiDigits t 0

/-- `calloc(n, sizeof(char))`: `n` zero bytes (the allocation is taken to succeed). -/
def calloc (n : Nat) : List Char := List.replicate n '\x00'

/-! ## The program -/

/-- The macro `SQUARES`. -/
def SQUARES : Nat := 64

/-- The macro `RANKS`. -/
def RANKS : Nat := 8

/-- Function `print_piece` (lines 43-58): the text it prints. -/
def print_piece (piece : Char) : List Char :=
  if isupper piece then
    ['|', 'w', piece]
  else if islower piece then
    ['|', 'b', toupper piece]
  else
    []

/-- The `for` loop of `print_empty_squares` (lines 74-77), by the number of
iterations still to run. -/
def emptyLoop : Nat → List Char
  | 0 => []
  | n + 1 => "|  ".toList ++ emptyLoop n

/-- Function `print_empty_squares` (lines 71-78): the text it prints.  `atoi` is
given the address of the single character; the string it reads there is taken
to be that character alone, the byte that follows it in memory being a
terminator.  A count that is not positive runs the loop zero times. -/
def print_empty_squares (empty_squares : Char) : List Char :=
  let square_count : Int := atoi [empty_squares]
  emptyLoop square_count.toNat

/-- The body of the render loop (lines 146-159): the text printed for one
character of the buffer. -/
def renderToken (c : Char) : List Char :=
  if isalpha c then
    print_piece c
  else if isdigit c then
    print_empty_squares c
  else
    "|\n".toList

/-- The scanner loop (lines 131-137).  `file` is the stream, `board` the buffer,
`i` the buffer index; the result is the buffer when the loop exits.  A store at
an index outside the buffer is a fault.  The first argument bounds the number
of iterations. -/
def scanLoop : Nat → List Char → List Char → Nat → Except Fault (List Char)
  | 0, _, _, _ => .error .outOfFuel
  | fuel + 1, file, board, i =>
    let c := toChar (fgetc file).1
    if c ≠ ' ' then
      if i < board.length then
        scanLoop fuel (fgetc file).2 (board.set i c) (i + 1)
      else
        .error (.outOfBounds i)
    else
      .ok board

/-- Lines 120-137: the buffer of `SQUARES+RANKS` zero bytes is allocated and the
scanner loop runs from index 0.  Every iteration but the last advances the
index and the iteration at index `SQUARES+RANKS` ends the run, so
`SQUARES+RANKS+1` iterations are all the loop can make. -/
def scan (file : List Char) : Except Fault (List Char) :=
  scanLoop (SQUARES + RANKS + 1) file (calloc (SQUARES + RANKS)) 0

/-- The render loop (lines 144-160).  The first argument is the buffer from index
`j` on; the result is the text printed.  Reading `board[j]` past the end of
the buffer is a fault. -/
def renderLoop : List Char → Nat → Except Fault (List Char)
  | [], j => .error (.outOfBounds j)
  | c :: rest, j =>
    if c ≠ '\x00' then
      match renderLoop rest (j + 1) with
      | .ok out => .ok (renderToken c ++ out)
      | .error e => .error e
    else
      .ok []

/-- Lines 144-162: the render loop and the closing of the last rank; this is the
text printed between the two lines of dashes. -/
def render (board : List Char) : Except Fault (List Char) :=
  match renderLoop board 0 with
  | .ok out => .ok (out ++ "|\n".toList)
  | .error e => .error e

/-- The line of 25 dashes of lines 140 and 163, with its newline. -/
def dashes : List Char := "-------------------------\n".toList

/-- Lines 119-167 of `main`, reached once the file is open: the whole output and
the value returned. -/
def printBoard (file_name file : List Char) : Except Fault (List Char × Int) :=
  match scan file with
  | .error e => .error e
  | .ok board =>
    match render board with
    | .error e => .error e
    | .ok text => .ok ("\n".toList ++ file_name ++ "\n".toList ++ dashes ++ text ++ dashes, 0)

/-- The C string at `file_name+index` (line 105).  For an index inside the name it is
the rest of the name from there.  A negative index points into the bytes that
precede the name in memory; the argument strings lie one after the other, so
these bytes are the end of `argv[0]` and its terminator, and the string read
there is the end of `argv[0]`, up to that terminator.  (The bytes before
`argv[0]` are not modelled: a pointer that reaches before it is taken at its
start.) -/
def stringAt (prog file_name : List Char) (index : Int) : List Char :=
  if index < 0 then
    ((prog ++ ['\x00']).drop (prog.length + 1 - (-index).toNat)).takeWhile
      (fun c => c != '\x00')
  else
    file_name.drop index.toNat

/-- Function `main` (lines 87-168).  `argv` is the argument vector (so `argc` is its
length) and `fopen` gives the content of the files that can be opened for
reading.  The result is the text printed and the value returned. -/
def main (argv : List (List Char)) (fopen : List Char → Option (List Char)) :
    Except Fault (List Char × Int) :=
  match argv with
  | [prog, file_name] =>
    let file_name_len : Int := (strlen file_name : Int)
    let ext_index : Int := file_name_len - 1 - 3
    let invalid : Int := strcmp (stringAt prog file_name ext_index) ".fen".toList
    if invalid ≠ 0 then
      .ok ("ERROR: invalid .fen file.\n".toList, 2)
    else
      match fopen file_name with
      | none => .ok ("ERROR: could not open file.\n".toList, 3)
      | some file => printBoard file_name file
  | _ => .ok ("usage: ./fen-printer fen_file.fen\n".toList, 1)

/-! ## Notions of the specification -/

/-- The text printed for a sequence of tokens, one after the other. -/
def renderTokens : List Char → List Char
  | [] => []
  | c :: cs => renderToken c ++ renderTokens cs

/-- The digits `1` to `8`. -/
def isDigit18 (c : Char) : Bool := decide (49 ≤ c.toNat ∧ c.toNat ≤ 56)

/-- The number of squares a token stands for: one for a letter, its value for a
digit, none otherwise. -/
def tokenSquares (c : Char) : Nat :=
  if isalpha c then 1 else if isdigit c then c.toNat - 48 else 0

/-- The number of squares of a rank descriptor: its letters plus the sum of its
digit values. -/
def rankSquares : List Char → Nat
  | [] => 0
  | c :: cs => tokenSquares c + rankSquares cs

/-- A valid rank descriptor: only letters and digits `1` to `8`, standing for 8
squares in all. -/
def validRank (r : List Char) : Bool :=
  r.all (fun c => isalpha c || isDigit18 c) && decide (rankSquares r = 8)

/-- The field made of the given rank descriptors, separated by `/`. -/
def joinRanks : List (List Char) → List Char
  | [] => []
  | [r] => r
  | r :: rs => r ++ '/' :: joinRanks rs

/-- The text of a cell: `|` and its two characters. -/
def cellText (cell : Char × Char) : List Char := ['|', cell.1, cell.2]

/-- The text of a rank line without its newline: its cells and the closing `|`. -/
def lineText : List (Char × Char) → List Char
  | [] => ['|']
  | cell :: cells => cellText cell ++ lineText cells

/-- A cell as the specification allows it: two spaces, or `w` or `b` and an
uppercase letter. -/
def cellOk (cell : Char × Char) : Bool :=
  (cell.1 == ' ' && cell.2 == ' ') || ((cell.1 == 'w' || cell.1 == 'b') && isupper cell.2)

/-- The cells a token stands for: one piece cell for a letter, as many blank cells
as its value for a digit. -/
def tokenCells (c : Char) : List (Char × Char) :=
  if isupper c then [('w', c)]
  else if islower c then [('b', toupper c)]
  else if isdigit c then List.replicate (c.toNat - 48) (' ', ' ')
  else []

/-- The cells a rank descriptor stands for, from left to right. -/
def rankCells : List Char → List (Char × Char)
  | [] => []
  | c :: cs => tokenCells c ++ rankCells cs

/-- A character outside `A-Z`, `a-z`, `0-9` and `/`. -/
def isOther (c : Char) : Bool := !(isalpha c || isdigit c || c == '/')

/-- The text of a sequence of lines, each followed by its newline. -/
def unlines : List (List Char) → List Char
  | [] => []
  | l :: ls => l ++ '\n' :: unlines ls

/-- A square of the expanded board, or the break between two ranks. -/
inductive Square where
  | piece (white : Bool) (letter : Char)
  | empty
  | rankBreak
  deriving DecidableEq, Repr

/-- The expansion of a token in the words of the specification: a digit is replaced
by that many empty squares, a letter by its colour and its uppercased letter,
and the separator `/` by a rank break. -/
def expandToken (c : Char) : List Square :=
  if isupper c then [Square.piece true c]
  else if islower c then [Square.piece false (toupper c)]
  else if isdigit c then List.replicate (c.toNat - 48) Square.empty
  else if c = '/' then [Square.rankBreak]
  else []

/-- The expansion of a field: the sequence of its squares and rank breaks. -/
def expand : List Char → List Square
  | [] => []
  | c :: cs => expandToken c ++ expand cs

/-- The text that stands for a square or a rank break in the printed board. -/
def squareText : Square → List Char
  | Square.piece white letter => ['|', if white then 'w' else 'b', letter]
  | Square.empty => "|  ".toList
  | Square.rankBreak => "|\n".toList

/-- The text of a sequence of squares and rank breaks. -/
def squaresText : List Square → List Char
  | [] => []
  | q :: qs => squareText q ++ squaresText qs

/-- Replacement by `/` of a character that is neither a letter nor a digit. -/
def slashOthers (c : Char) : Char := if isalpha c || isdigit c then c else '/'

/-! ## Characters -/

theorem toChar_toNat (c : Char) (h : c.toNat < 256) : toChar (c.toNat : Int) = c := by
  unfold toChar
  have h1 : ((c.toNat : Int) % 2 ^ 8).toNat = c.toNat := by omega
  rw [h1, Char.ofNat_toNat]

theorem toChar_EOF : toChar EOF ≠ ' ' := by decide

theorem isalpha_toNat_lt (c : Char) (h : isalpha c = true) : c.toNat < 256 := by
  simp only [isalpha, isupper, islower, Bool.or_eq_true, decide_eq_true_eq] at h
  omega

theorem isdigit_toNat_lt (c : Char) (h : isdigit c = true) : c.toNat < 256 := by
  simp only [isdigit, decide_eq_true_eq] at h
  omega

theorem atoi_digit (c : Char) (h : isdigit c = true) : atoi [c] = (c.toNat : Int) - 48 := by
  have hd := h
  simp only [isdigit, decide_eq_true_eq] at hd
  have hs : isspace c = false := by
    simp only [isspace, decide_eq_false_iff_not]
    omega
  have hm : c ≠ '-' := by
    intro e
    rw [e] at hd
    revert hd
    decide
  have hp : c ≠ '+' := by
    intro e
    rw [e] at hd
    revert hd
    decide
  unfold atoi
  simp only [List.dropWhile, hs]
  split
  · rename_i heq
    simp only [List.cons.injEq] at heq
    exact absurd heq.1 hm
  · rename_i heq
    simp only [List.cons.injEq] at heq
    exact absurd heq.1 hp
  · simp [atoiDigits, h]

theorem print_empty_squares_digit (c : Char) (h : isdigit c = true) :
    print_empty_squares c = emptyLoop (c.toNat - 48) := by
  have hd := h
  simp only [isdigit, decide_eq_true_eq] at hd
  unfold print_empty_squares
  rw [atoi_digit c h]
  have e : ((c.toNat : Int) - 48).toNat = c.toNat - 48 := by omega
  simp only [e]

/-! ## The scanner -/

theorem set_length_append (pre : List Char) (p c : Char) (post : List Char) :
    (pre ++ p :: post).set pre.length c = pre ++ c :: post := by
  induction pre with
  | nil => rfl
  | cons a pre ih => simp [List.set, ih]

theorem scanLoop_succ (fuel : Nat) (file board : List Char) (i : Nat) :
    scanLoop (fuel + 1) file board i =
      if toChar (fgetc file).1 = ' ' then .ok board
      else if i < board.length then
        scanLoop fuel (fgetc file).2 (board.set i (toChar (fgetc file).1)) (i + 1)
      else .error (.outOfBounds (i : Int)) := by
  by_cases h : toChar (fgetc file).1 = ' ' <;> simp [scanLoop, h]

theorem toChar_space : toChar ((' ' : Char).toNat : Int) = ' ' := by decide

/-- The scanner loop never exhausts its iteration budget when the budget exceeds
the room left in the buffer. -/
theorem scanLoop_fuel (fuel : Nat) :
    ∀ (file board : List Char) (i : Nat), board.length - i < fuel →
      scanLoop fuel file board i ≠ .error .outOfFuel := by
  induction fuel with
  | zero => intro file board i h; omega
  | succ fuel ih =>
    intro file board i h
    rw [scanLoop_succ]
    by_cases hc : toChar (fgetc file).1 = ' '
    · simp [hc]
    · by_cases hi : i < board.length
      · simp only [hc, hi, if_true, if_false]
        apply ih
        rw [List.length_set]
        omega
      · simp [hc, hi]

/-- The iteration budget that `scan` gives the scanner loop is never exhausted: on
every stream the scan ends with a buffer or with a store outside the buffer. -/
theorem scan_fuel (file : List Char) : scan file ≠ .error .outOfFuel := by
  apply scanLoop_fuel
  simp [calloc]

/-- The scanner's result does not depend on what follows the first space. -/
theorem scanLoop_rest (field : List Char) (r1 r2 : List Char) :
    ∀ (fuel : Nat) (board : List Char) (i : Nat),
      scanLoop fuel (field ++ ' ' :: r1) board i = scanLoop fuel (field ++ ' ' :: r2) board i := by
  induction field with
  | nil =>
    intro fuel board i
    cases fuel with
    | zero => rfl
    | succ fuel =>
      rw [scanLoop_succ, scanLoop_succ]
      simp only [List.nil_append, fgetc, toChar_space, if_true]
  | cons a field ih =>
    intro fuel board i
    cases fuel with
    | zero => rfl
    | succ fuel =>
      rw [scanLoop_succ, scanLoop_succ]
      simp only [fgetc, List.cons_append]
      rw [ih]

/-- On a stream without a space the scanner loop runs past the end of the buffer. -/
theorem scanLoop_no_space (fuel : Nat) :
    ∀ (file board : List Char) (i : Nat), (∀ c ∈ file, toChar (c.toNat : Int) ≠ ' ') →
      i ≤ board.length → board.length - i < fuel →
      scanLoop fuel file board i = .error (.outOfBounds (board.length : Int)) := by
  induction fuel with
  | zero => intro file board i _ _ h; omega
  | succ fuel ih =>
    intro file board i hsp hi hf
    have hc : toChar (fgetc file).1 ≠ ' ' := by
      cases file with
      | nil => exact toChar_EOF
      | cons a file => exact hsp a (List.mem_cons_self a file)
    have hrest : ∀ c ∈ (fgetc file).2, toChar (c.toNat : Int) ≠ ' ' := by
      cases file with
      | nil => intro c hc'; simp [fgetc] at hc'
      | cons a file => intro c hc'; exact hsp c (List.mem_cons_of_mem a hc')
    rw [scanLoop_succ]
    by_cases hlt : i < board.length
    · simp only [hc, hlt, if_true, if_false]
      have h := ih (fgetc file).2 (board.set i (toChar (fgetc file).1)) (i + 1) hrest
        (by rw [List.length_set]; omega) (by rw [List.length_set]; omega)
      rw [h, List.length_set]
    · have e : i = board.length := by omega
      simp only [hc, hlt, if_false]
      rw [e]

/-- The scanner loop on a field followed by a space stores the field in the buffer
from the current index on and stops. -/
theorem scanLoop_field (field rest : List Char)
    (hsp : ∀ c ∈ field, toChar (c.toNat : Int) ≠ ' ') :
    ∀ (fuel : Nat) (pre post : List Char), field.length < fuel → field.length ≤ post.length →
      scanLoop fuel (field ++ ' ' :: rest) (pre ++ post) pre.length =
        .ok (pre ++ (field.map (fun c => toChar (c.toNat : Int)) ++ post.drop field.length)) := by
  induction field with
  | nil =>
    intro fuel pre post hf _
    cases fuel with
    | zero => simp at hf
    | succ fuel =>
      rw [scanLoop_succ]
      simp only [List.nil_append, fgetc, toChar_space, if_true, List.map_nil, List.length_nil,
        List.drop_zero]
  | cons a field ih =>
    intro fuel pre post hf hp
    cases fuel with
    | zero => simp at hf
    | succ fuel =>
      cases post with
      | nil => simp at hp
      | cons p post =>
        have ha : toChar (a.toNat : Int) ≠ ' ' := hsp a (List.mem_cons_self a field)
        have hlt : pre.length < (pre ++ p :: post).length := by simp
        have hih := ih (fun c hc => hsp c (List.mem_cons_of_mem a hc)) fuel
          (pre ++ [toChar (a.toNat : Int)]) post
          (by simp at hf; omega) (by simp at hp; omega)
        simp only [List.length_append, List.length_singleton, List.append_assoc,
          List.singleton_append] at hih
        rw [scanLoop_succ]
        simp only [fgetc, List.cons_append, ha, if_false, hlt, if_true, set_length_append, hih,
          List.map_cons, List.length_cons, List.drop_succ_cons]

theorem map_toChar_bytes (field : List Char) (hb : ∀ c ∈ field, c.toNat < 256) :
    field.map (fun c => toChar (c.toNat : Int)) = field := by
  induction field with
  | nil => rfl
  | cons a field ih =>
    simp only [List.map_cons]
    rw [toChar_toNat a (hb a (List.mem_cons_self a field)),
      ih (fun c hc => hb c (List.mem_cons_of_mem a hc))]

/-- Scanning a field of bytes without a space, of at most 72 characters and followed
by a space, leaves the field in the buffer, followed by the zero bytes left. -/
theorem scan_field (field rest : List Char) (hlen : field.length ≤ SQUARES + RANKS)
    (hsp : ∀ c ∈ field, c ≠ ' ') (hb : ∀ c ∈ field, c.toNat < 256) :
    scan (field ++ ' ' :: rest) = .ok (field ++ calloc (SQUARES + RANKS - field.length)) := by
  have hsp' : ∀ c ∈ field, toChar (c.toNat : Int) ≠ ' ' := by
    intro c hc
    rw [toChar_toNat c (hb c hc)]
    exact hsp c hc
  have h := scanLoop_field field rest hsp' (SQUARES + RANKS + 1) [] (calloc (SQUARES + RANKS))
    (by omega) (by simp [calloc]; exact hlen)
  simp only [List.nil_append, List.length_nil] at h
  unfold scan
  rw [h, map_toChar_bytes field hb]
  simp [calloc]

/-! ## The renderer -/

theorem renderLoop_cons (c : Char) (rest : List Char) (j : Nat) (hc : c ≠ '\x00') :
    renderLoop (c :: rest) j =
      match renderLoop rest (j + 1) with
      | .ok out => .ok (renderToken c ++ out)
      | .error e => .error e := by
  simp [renderLoop, hc]

/-- The render loop prints the tokens before the first zero byte and stops there. -/
theorem renderLoop_field (field tail : List Char) (hnul : ∀ c ∈ field, c ≠ '\x00') :
    ∀ j : Nat, renderLoop (field ++ '\x00' :: tail) j = .ok (renderTokens field) := by
  induction field with
  | nil => intro j; simp [renderLoop, renderTokens]
  | cons a field ih =>
    intro j
    have ha : a ≠ '\x00' := hnul a (List.mem_cons_self a field)
    rw [List.cons_append, renderLoop_cons a _ j ha,
      ih (fun c hc => hnul c (List.mem_cons_of_mem a hc))]
    rfl

/-- The render loop on a buffer without a zero byte reads past its end. -/
theorem renderLoop_full (board : List Char) (hnul : ∀ c ∈ board, c ≠ '\x00') :
    ∀ j : Nat, renderLoop board j = .error (.outOfBounds ((j + board.length : Nat) : Int)) := by
  induction board with
  | nil => intro j; simp [renderLoop]
  | cons a board ih =>
    intro j
    have ha : a ≠ '\x00' := hnul a (List.mem_cons_self a board)
    rw [renderLoop_cons a _ j ha, ih (fun c hc => hnul c (List.mem_cons_of_mem a hc))]
    have e : j + 1 + board.length = j + (a :: board).length := by simp; omega
    simp only [e]

theorem calloc_succ (n : Nat) : calloc (n + 1) = '\x00' :: calloc n := rfl

/-- Rendering a buffer that holds a field of fewer than 72 non-zero characters. -/
theorem render_field (field : List Char) (hlen : field.length < SQUARES + RANKS)
    (hnul : ∀ c ∈ field, c ≠ '\x00') :
    render (field ++ calloc (SQUARES + RANKS - field.length)) =
      .ok (renderTokens field ++ "|\n".toList) := by
  obtain ⟨n, hn⟩ : ∃ n, SQUARES + RANKS - field.length = n + 1 :=
    ⟨SQUARES + RANKS - field.length - 1, by omega⟩
  rw [hn, calloc_succ]
  unfold render
  rw [renderLoop_field field _ hnul]

/-- Lines 119-167 on a file whose field has at most 71 characters, all of them
bytes other than the space and the zero byte. -/
theorem printBoard_field (file_name field rest : List Char) (hlen : field.length ≤ 71)
    (hsp : ∀ c ∈ field, c ≠ ' ') (hnul : ∀ c ∈ field, c ≠ '\x00')
    (hb : ∀ c ∈ field, c.toNat < 256) :
    printBoard file_name (field ++ ' ' :: rest) =
      .ok ("\n".toList ++ file_name ++ "\n".toList ++ dashes ++
        (renderTokens field ++ "|\n".toList) ++ dashes, 0) := by
  have h72 : SQUARES + RANKS = 72 := rfl
  unfold printBoard
  rw [scan_field field rest (by omega) hsp hb]
  simp only []
  rw [render_field field (by omega) hnul]

theorem stringAt_inside (prog name : List Char) (h4 : 4 ≤ name.length) :
    stringAt prog name (((strlen name : Nat) : Int) - 1 - 3) = name.drop (name.length - 4) := by
  have h1 : ¬ (((strlen name : Nat) : Int) - 1 - 3 < 0) := by
    simp only [strlen]
    omega
  have h2 : (((strlen name : Nat) : Int) - 1 - 3).toNat = name.length - 4 := by
    simp only [strlen]
    omega
  simp only [stringAt, h1, if_false, h2]

/-- The function `main` on two arguments, the second ending in `.fen`. -/
theorem main_fen (prog stem : List Char) (fopen : List Char → Option (List Char)) :
    main [prog, stem ++ ".fen".toList] fopen =
      match fopen (stem ++ ".fen".toList) with
      | none => .ok ("ERROR: could not open file.\n".toList, 3)
      | some file => printBoard (stem ++ ".fen".toList) file := by
  have h4 : 4 ≤ (stem ++ ".fen".toList).length := by simp
  have h2 : (stem ++ ".fen".toList).length - 4 = stem.length := by simp
  have h3 : strcmp ".fen".toList ".fen".toList = 0 := by decide
  unfold main
  simp only [stringAt_inside prog _ h4, h2, List.drop_left, h3, ne_eq, not_true_eq_false,
    if_false]

/-! ## Ranks and lines -/

theorem toNat_ofNat_small (n : Nat) (h : n < 256) : (Char.ofNat n).toNat = n := by
  have hv : n.isValidChar := by
    left
    omega
  simp only [Char.ofNat, hv, dite_true, Char.ofNatAux, Char.toNat]
  rfl

theorem isupper_toupper (c : Char) (h : islower c = true) : isupper (toupper c) = true := by
  have hl := h
  simp only [islower, decide_eq_true_eq] at hl
  simp only [toupper, h, if_true, isupper, decide_eq_true_eq]
  rw [toNat_ofNat_small _ (by omega)]
  omega

theorem renderTokens_append (a b : List Char) :
    renderTokens (a ++ b) = renderTokens a ++ renderTokens b := by
  induction a with
  | nil => rfl
  | cons c a ih => simp [renderTokens, ih]

theorem renderToken_slash : renderToken '/' = "|\n".toList := by decide

/-- The text printed for a field of one rank or more, with the closing of the last
rank: one line for each rank. -/
theorem render_joinRanks (rs : List (List Char)) :
    ∀ r : List Char, renderTokens (joinRanks (r :: rs)) ++ "|\n".toList =
      unlines ((r :: rs).map (fun r => renderTokens r ++ ['|'])) := by
  induction rs with
  | nil => intro r; simp [joinRanks, unlines]
  | cons r' rs ih =>
    intro r
    have h := ih r'
    simp only [List.map_cons] at h
    simp only [joinRanks, List.map_cons, unlines]
    rw [renderTokens_append]
    simp only [renderTokens, renderToken_slash, List.append_assoc]
    rw [h]
    simp [unlines]

theorem emptyLoop_lineText (n : Nat) (cells : List (Char × Char)) :
    emptyLoop n ++ lineText cells = lineText (List.replicate n (' ', ' ') ++ cells) := by
  induction n with
  | zero => rfl
  | succ n ih =>
    simp only [emptyLoop, List.replicate_succ, List.cons_append, lineText, List.append_assoc, ih]
    rfl

theorem lineText_append (a b : List (Char × Char)) :
    lineText (a ++ b) = (lineText a).dropLast ++ lineText b := by
  induction a with
  | nil => rfl
  | cons c a ih =>
    have hne : lineText a ≠ [] := by cases a <;> simp [lineText, cellText]
    simp [lineText, cellText, ih, List.dropLast_cons_of_ne_nil hne]

theorem lineText_length (cells : List (Char × Char)) :
    (lineText cells).length = 3 * cells.length + 1 := by
  induction cells with
  | nil => rfl
  | cons c cells ih => simp [lineText, cellText, ih]; omega

/-- The text printed for a token that is a letter or a digit is the text of its cells. -/
theorem renderToken_cells (c : Char) (h : isalpha c = true ∨ isdigit c = true)
    (cells : List (Char × Char)) :
    renderToken c ++ lineText cells = lineText (tokenCells c ++ cells) := by
  by_cases hu : isupper c = true
  · simp [renderToken, isalpha, print_piece, tokenCells, hu, lineText, cellText]
  · by_cases hl : islower c = true
    · simp [renderToken, isalpha, print_piece, tokenCells, hu, hl, lineText, cellText]
    · have hd : isdigit c = true := by
        rcases h with h | h
        · simp [isalpha, hu, hl] at h
        · exact h
      simp only [renderToken, isalpha, hu, hl, Bool.or_self, Bool.false_eq_true, if_false, hd,
        if_true, tokenCells, print_empty_squares_digit c hd, emptyLoop_lineText]

/-- The line printed for a rank descriptor of letters and digits is the text of its cells. -/
theorem rank_line (r : List Char) (h : ∀ c ∈ r, isalpha c = true ∨ isdigit c = true) :
    renderTokens r ++ ['|'] = lineText (rankCells r) := by
  induction r with
  | nil => rfl
  | cons c r ih =>
    simp only [renderTokens, rankCells, List.append_assoc]
    rw [ih (fun d hd => h d (List.mem_cons_of_mem c hd)),
      renderToken_cells c (h c (List.mem_cons_self c r))]

theorem tokenCells_length (c : Char) : (tokenCells c).length = tokenSquares c := by
  by_cases hu : isupper c = true
  · simp [tokenCells, tokenSquares, isalpha, hu]
  · by_cases hl : islower c = true
    · simp [tokenCells, tokenSquares, isalpha, hu, hl]
    · by_cases hd : isdigit c = true <;> simp [tokenCells, tokenSquares, isalpha, hu, hl, hd]

theorem rankCells_length (r : List Char) : (rankCells r).length = rankSquares r := by
  induction r with
  | nil => rfl
  | cons c r ih => simp [rankCells, rankSquares, tokenCells_length, ih]

theorem tokenCells_ok (c : Char) : ∀ cell ∈ tokenCells c, cellOk cell = true := by
  intro cell hcell
  by_cases hu : isupper c = true
  · simp only [tokenCells, hu, if_true, List.mem_singleton] at hcell
    subst hcell
    simp [cellOk, hu]
  · by_cases hl : islower c = true
    · simp [tokenCells, hu, hl] at hcell
      subst hcell
      simp [cellOk, isupper_toupper c hl]
    · by_cases hd : isdigit c = true
      · simp [tokenCells, hu, hl, hd] at hcell
        rw [hcell.2]
        rfl
      · simp [tokenCells, hu, hl, hd] at hcell

theorem rankCells_ok (r : List Char) : ∀ cell ∈ rankCells r, cellOk cell = true := by
  induction r with
  | nil => intro cell h; simp [rankCells] at h
  | cons c r ih =>
    intro cell h
    simp only [rankCells, List.mem_append] at h
    rcases h with h | h
    · exact tokenCells_ok c cell h
    · exact ih cell h

/-! ## Valid fields -/

theorem validRank_chars (r : List Char) (h : validRank r = true) :
    ∀ c ∈ r, isalpha c = true ∨ isDigit18 c = true := by
  intro c hc
  simp only [validRank, Bool.and_eq_true, List.all_eq_true, Bool.or_eq_true] at h
  exact h.1 c hc

theorem validRank_squares (r : List Char) (h : validRank r = true) : rankSquares r = 8 := by
  simp only [validRank, Bool.and_eq_true, decide_eq_true_eq] at h
  exact h.2

theorem isDigit18_isdigit (c : Char) (h : isDigit18 c = true) : isdigit c = true := by
  simp only [isDigit18, decide_eq_true_eq] at h
  simp only [isdigit, decide_eq_true_eq]
  omega

theorem tokenSquares_pos (c : Char) (h : isalpha c = true ∨ isDigit18 c = true) :
    1 ≤ tokenSquares c := by
  by_cases ha : isalpha c = true
  · simp [tokenSquares, ha]
  · have hd : isDigit18 c = true := by
      rcases h with h | h
      · exact absurd h ha
      · exact h
    have hd' := hd
    simp only [isDigit18, decide_eq_true_eq] at hd'
    simp only [tokenSquares, ha, Bool.false_eq_true, if_false, isDigit18_isdigit c hd, if_true]
    omega

theorem rank_length_le (r : List Char) (h : ∀ c ∈ r, isalpha c = true ∨ isDigit18 c = true) :
    r.length ≤ rankSquares r := by
  induction r with
  | nil => simp
  | cons c r ih =>
    have h1 := tokenSquares_pos c (h c (List.mem_cons_self c r))
    have h2 := ih (fun d hd => h d (List.mem_cons_of_mem c hd))
    simp only [List.length_cons, rankSquares]
    omega

theorem joinRanks_length (ranks : List (List Char)) (h : ∀ r ∈ ranks, r.length ≤ 8) :
    (joinRanks ranks).length ≤ 9 * ranks.length - 1 := by
  induction ranks with
  | nil => simp [joinRanks]
  | cons r rs ih =>
    have h1 := h r (List.mem_cons_self r rs)
    cases rs with
    | nil => simp [joinRanks]; omega
    | cons r' rs =>
      have h2 := ih (fun d hd => h d (List.mem_cons_of_mem r hd))
      simp only [joinRanks, List.length_append, List.length_cons] at h2 ⊢
      omega

theorem mem_joinRanks (ranks : List (List Char)) (c : Char) (h : c ∈ joinRanks ranks) :
    c = '/' ∨ ∃ r ∈ ranks, c ∈ r := by
  induction ranks with
  | nil => simp [joinRanks] at h
  | cons r rs ih =>
    cases rs with
    | nil =>
      simp only [joinRanks] at h
      exact Or.inr ⟨r, List.mem_cons_self r [], h⟩
    | cons r' rs =>
      simp only [joinRanks, List.mem_append, List.mem_cons] at h
      rcases h with h | h | h
      · exact Or.inr ⟨r, List.mem_cons_self r _, h⟩
      · exact Or.inl h
      · rcases ih h with h' | ⟨d, hd, hcd⟩
        · exact Or.inl h'
        · exact Or.inr ⟨d, List.mem_cons_of_mem r hd, hcd⟩

/-- A separator, a letter or a digit is a byte that is neither the space nor zero. -/
theorem fieldChar_ok (c : Char) (h : c = '/' ∨ isalpha c = true ∨ isdigit c = true) :
    c ≠ ' ' ∧ c ≠ '\x00' ∧ c.toNat < 256 := by
  rcases h with h | h | h
  · subst h
    decide
  · refine ⟨?_, ?_, isalpha_toNat_lt c h⟩
    · intro e
      subst e
      revert h
      decide
    · intro e
      subst e
      revert h
      decide
  · refine ⟨?_, ?_, isdigit_toNat_lt c h⟩
    · intro e
      subst e
      revert h
      decide
    · intro e
      subst e
      revert h
      decide

theorem validField_chars (ranks : List (List Char)) (hv : ∀ r ∈ ranks, validRank r = true) :
    ∀ c ∈ joinRanks ranks, c = '/' ∨ isalpha c = true ∨ isdigit c = true := by
  intro c hc
  rcases mem_joinRanks ranks c hc with h | ⟨r, hr, hcr⟩
  · exact Or.inl h
  · rcases validRank_chars r (hv r hr) c hcr with h | h
    · exact Or.inr (Or.inl h)
    · exact Or.inr (Or.inr (isDigit18_isdigit c h))

theorem validField_length (ranks : List (List Char)) (h8 : ranks.length = 8)
    (hv : ∀ r ∈ ranks, validRank r = true) : (joinRanks ranks).length ≤ 71 := by
  have h := joinRanks_length ranks (fun r hr => by
    have h1 := rank_length_le r (validRank_chars r (hv r hr))
    have h2 := validRank_squares r (hv r hr)
    omega)
  omega

theorem cellOk_no_newline (cell : Char × Char) (h : cellOk cell = true) :
    cell.1 ≠ '\n' ∧ cell.2 ≠ '\n' := by
  obtain ⟨a, b⟩ := cell
  simp only [cellOk, Bool.or_eq_true, Bool.and_eq_true, beq_iff_eq] at h
  have hn : isupper '\n' = false := by decide
  show a ≠ '\n' ∧ b ≠ '\n'
  rcases h with ⟨ha, hb⟩ | ⟨ha | ha, hb⟩
  · rw [ha, hb]
    decide
  · refine ⟨by rw [ha]; decide, fun e => ?_⟩
    rw [e, hn] at hb
    exact Bool.false_ne_true hb
  · refine ⟨by rw [ha]; decide, fun e => ?_⟩
    rw [e, hn] at hb
    exact Bool.false_ne_true hb

theorem lineText_no_newline (cells : List (Char × Char))
    (h : ∀ cell ∈ cells, cellOk cell = true) : '\n' ∉ lineText cells := by
  induction cells with
  | nil => decide
  | cons cell cells ih =>
    have hc := cellOk_no_newline cell (h cell (List.mem_cons_self cell cells))
    have ih' := ih (fun d hd => h d (List.mem_cons_of_mem cell hd))
    simp only [lineText, cellText, List.cons_append, List.nil_append, List.mem_cons, not_or]
    exact ⟨by decide, fun e => hc.1 e.symm, fun e => hc.2 e.symm, ih'⟩

/-! ## The whole program -/

/-- Lines 119-167 do not depend on what follows the first space of the file. -/
theorem printBoard_rest (file_name field r1 r2 : List Char) :
    printBoard file_name (field ++ ' ' :: r1) = printBoard file_name (field ++ ' ' :: r2) := by
  unfold printBoard scan
  rw [scanLoop_rest field r1 r2]

/-- The loop of `print_empty_squares` prints its cell once for each iteration. -/
theorem emptyLoop_replicate (n : Nat) :
    emptyLoop n = (List.replicate n "|  ".toList).flatten := by
  induction n with
  | zero => rfl
  | succ n ih => rw [emptyLoop, List.replicate_succ, List.flatten_cons, ih]

theorem dashes_eq : dashes = List.replicate 25 '-' ++ "\n".toList := by decide

/-- Scanning a stream of bytes without a space: the store at index 72 is outside the
buffer. -/
theorem scan_no_space (file : List Char) (hsp : ∀ c ∈ file, c ≠ ' ')
    (hb : ∀ c ∈ file, c.toNat < 256) : scan file = .error (.outOfBounds 72) := by
  have hsp' : ∀ c ∈ file, toChar (c.toNat : Int) ≠ ' ' := by
    intro c hc
    rw [toChar_toNat c (hb c hc)]
    exact hsp c hc
  have h := scanLoop_no_space (SQUARES + RANKS + 1) file (calloc (SQUARES + RANKS)) 0 hsp'
    (Nat.zero_le _) (by simp [calloc])
  unfold scan
  rw [h]
  rfl

theorem char_eq_of_toNat (c d : Char) (h : c.toNat = d.toNat) : c = d := by
  rw [← Char.ofNat_toNat c, ← Char.ofNat_toNat d, h]

/-- A character that is neither a letter nor a digit is printed as `|` and a newline. -/
theorem renderToken_other (c : Char) (ha : isalpha c = false) (hd : isdigit c = false) :
    renderToken c = "|\n".toList := by
  simp [renderToken, ha, hd]

/-- Each character outside the letters, the digits and `/` adds two characters to the
text printed for a sequence of tokens. -/
theorem renderTokens_length_filter (field : List Char) :
    (renderTokens field).length =
      (renderTokens (field.filter (fun c => !isOther c))).length +
        2 * field.countP isOther := by
  induction field with
  | nil => rfl
  | cons c field ih =>
    by_cases ho : isOther c = true
    · have ho' := ho
      simp only [isOther, Bool.not_eq_true', Bool.or_eq_false_iff] at ho'
      have hr := renderToken_other c ho'.1.1 ho'.1.2
      simp only [renderTokens, List.length_append, hr, List.filter_cons, ho, Bool.not_true,
        Bool.false_eq_true, if_false, List.countP_cons, if_true, ih]
      have e : ("|\n".toList).length = 2 := rfl
      omega
    · simp only [renderTokens, List.length_append, List.filter_cons, ho, Bool.not_false,
        if_true, List.countP_cons, if_false, ih, Bool.not_eq_true] at *
      simp only [ho, Bool.not_false, if_true, renderTokens, List.length_append,
        Bool.false_eq_true, if_false]
      omega

/-! ## Buffers that hold a field -/

/-- Rendering a buffer of any size that holds a field without zero byte and a zero
byte after it. -/
theorem render_nul (field tail : List Char) (hnul : ∀ c ∈ field, c ≠ '\x00') :
    render (field ++ '\x00' :: tail) = .ok (renderTokens field ++ "|\n".toList) := by
  unfold render
  rw [renderLoop_field field tail hnul]

theorem renderTokens_eq_flatten (a : List Char) :
    renderTokens a = (a.map renderToken).flatten := by
  induction a with
  | nil => rfl
  | cons c a ih => rw [renderTokens, List.map_cons, List.flatten_cons, ih]

theorem unlines_eq_flatten (f : List Char → List Char) (ls : List (List Char)) :
    unlines (ls.map (fun d => f d ++ ['|'])) =
      (ls.map (fun d => f d ++ "|\n".toList)).flatten := by
  induction ls with
  | nil => rfl
  | cons l ls ih =>
    simp only [List.map_cons, unlines, List.flatten_cons, ih]
    simp

/-- The text printed for a rank descriptor of letters and digits holds no newline. -/
theorem renderTokens_no_newline (r : List Char)
    (h : ∀ c ∈ r, isalpha c = true ∨ isdigit c = true) : '\n' ∉ renderTokens r := by
  intro hmem
  have h1 := lineText_no_newline (rankCells r) (rankCells_ok r)
  rw [← rank_line r h] at h1
  exact h1 (List.mem_append_left _ hmem)

theorem count_newline_lines (f : List Char → List Char) (ls : List (List Char))
    (h : ∀ d ∈ ls, '\n' ∉ f d) :
    (ls.map (fun d => f d ++ "|\n".toList)).flatten.count '\n' = ls.length := by
  induction ls with
  | nil => rfl
  | cons l ls ih =>
    have h1 : (f l).count '\n' = 0 := List.count_eq_zero.mpr (h l (List.mem_cons_self l ls))
    have h2 : ("|\n".toList).count '\n' = 1 := by decide
    simp only [List.map_cons, List.flatten_cons, List.count_append, h1, h2,
      ih (fun d hd => h d (List.mem_cons_of_mem l hd)), List.length_cons]
    omega

theorem count_slash_joinRanks (rs : List (List Char)) :
    ∀ r : List Char, (∀ d ∈ r :: rs, '/' ∉ d) → (joinRanks (r :: rs)).count '/' = rs.length := by
  induction rs with
  | nil =>
    intro r h
    simp only [joinRanks, List.length_nil]
    exact List.count_eq_zero.mpr (h r (List.mem_cons_self r []))
  | cons r' rs ih =>
    intro r h
    have h1 : r.count '/' = 0 := List.count_eq_zero.mpr (h r (List.mem_cons_self r _))
    have h2 := ih r' (fun d hd => h d (List.mem_cons_of_mem r hd))
    simp only [joinRanks, List.count_append, List.count_cons_self, h1, h2, List.length_cons]
    omega

theorem alnum_not_slash (c : Char) (h : isalpha c = true ∨ isdigit c = true) : c ≠ '/' := by
  intro e
  subst e
  revert h
  decide

theorem joinRanks_chars (ranks : List (List Char))
    (h : ∀ d ∈ ranks, ∀ c ∈ d, isalpha c = true ∨ isdigit c = true) :
    ∀ c ∈ joinRanks ranks, c = '/' ∨ isalpha c = true ∨ isdigit c = true := by
  intro c hc
  rcases mem_joinRanks ranks c hc with e | ⟨d, hd, hcd⟩
  · exact Or.inl e
  · exact Or.inr (h d hd c hcd)

/-! ## Fields that do not fit the buffer -/

/-- When none of the next characters of the stream, one more than the room left in
the buffer, is a space, the scanner loop stores past the end of the buffer. -/
theorem scanLoop_overrun (fuel : Nat) :
    ∀ (file board : List Char) (i : Nat),
      (∀ c ∈ file.take (board.length - i + 1), toChar (c.toNat : Int) ≠ ' ') →
      i ≤ board.length → board.length - i < fuel →
      scanLoop fuel file board i = .error (.outOfBounds (board.length : Int)) := by
  induction fuel with
  | zero => intro file board i _ _ h; omega
  | succ fuel ih =>
    intro file board i hsp hi hf
    have hc : toChar (fgetc file).1 ≠ ' ' := by
      cases file with
      | nil => exact toChar_EOF
      | cons a file =>
        apply hsp a
        rw [List.take_succ_cons]
        exact List.mem_cons_self a _
    rw [scanLoop_succ]
    by_cases hlt : i < board.length
    · have hrest : ∀ c ∈ (fgetc file).2.take
          ((board.set i (toChar (fgetc file).1)).length - (i + 1) + 1),
          toChar (c.toNat : Int) ≠ ' ' := by
        have e : (board.set i (toChar (fgetc file).1)).length - (i + 1) + 1 =
            board.length - i := by rw [List.length_set]; omega
        rw [e]
        cases file with
        | nil => intro c hc'; simp [fgetc] at hc'
        | cons a file =>
          intro c hc'
          apply hsp c
          rw [List.take_succ_cons]
          exact List.mem_cons_of_mem a hc'
      simp only [hc, hlt, if_true, if_false]
      have h := ih (fgetc file).2 (board.set i (toChar (fgetc file).1)) (i + 1) hrest
        (by rw [List.length_set]; omega) (by rw [List.length_set]; omega)
      rw [h, List.length_set]
    · have e : i = board.length := by omega
      simp only [hc, hlt, if_false]
      rw [e]

/-- Scanning a field of 73 bytes or more without a space: the store at index 72 is
outside the buffer. -/
theorem scan_long (field rest : List Char) (hlen : 73 ≤ field.length)
    (hsp : ∀ c ∈ field, c ≠ ' ') (hb : ∀ c ∈ field, c.toNat < 256) :
    scan (field ++ ' ' :: rest) = .error (.outOfBounds 72) := by
  have hsp' : ∀ c ∈ (field ++ ' ' :: rest).take ((calloc (SQUARES + RANKS)).length - 0 + 1),
      toChar (c.toNat : Int) ≠ ' ' := by
    intro c hc
    have e : (calloc (SQUARES + RANKS)).length - 0 + 1 = 73 := rfl
    rw [e, List.take_append_of_le_length hlen] at hc
    have hm := List.mem_of_mem_take hc
    rw [toChar_toNat c (hb c hm)]
    exact hsp c hm
  have h := scanLoop_overrun (SQUARES + RANKS + 1) (field ++ ' ' :: rest)
    (calloc (SQUARES + RANKS)) 0 hsp' (Nat.zero_le _) (by simp [calloc])
  unfold scan
  rw [h]
  rfl

/-- Rendering a full buffer without zero byte: the read at index 72 is outside the
buffer. -/
theorem render_full (board : List Char) (hlen : board.length = 72)
    (hnul : ∀ c ∈ board, c ≠ '\x00') : render board = .error (.outOfBounds 72) := by
  unfold render
  rw [renderLoop_full board hnul 0, hlen]
  rfl

/-! ## Squares -/

theorem renderToken_squares (c : Char)
    (h : c = '/' ∨ isalpha c = true ∨ isdigit c = true) :
    renderToken c = squaresText (expandToken c) := by
  rcases h with h | h | h
  · subst h
    decide
  · by_cases hu : isupper c = true
    · simp [renderToken, h, print_piece, hu, expandToken, squaresText, squareText]
    · have hl : islower c = true := by
        simp only [isalpha, Bool.or_eq_true] at h
        rcases h with h | h
        · exact absurd h hu
        · exact h
      simp [renderToken, h, print_piece, hu, hl, expandToken, squaresText, squareText]
  · have hd := h
    simp only [isdigit, decide_eq_true_eq] at hd
    have ha : isalpha c = false := by
      simp only [isalpha, isupper, islower, Bool.or_eq_false_iff, decide_eq_false_iff_not]
      omega
    have hu : isupper c = false := by
      simp only [isupper, decide_eq_false_iff_not]
      omega
    have hl : islower c = false := by
      simp only [islower, decide_eq_false_iff_not]
      omega
    have e : ∀ n : Nat, emptyLoop n = squaresText (List.replicate n Square.empty) := by
      intro n
      induction n with
      | zero => rfl
      | succ n ih => rw [emptyLoop, List.replicate_succ, squaresText, ih]; rfl
    simp only [renderToken, ha, Bool.false_eq_true, if_false, h, if_true,
      print_empty_squares_digit c h, expandToken, hu, hl, e]

theorem squaresText_append (xs ys : List Square) :
    squaresText (xs ++ ys) = squaresText xs ++ squaresText ys := by
  induction xs with
  | nil => rfl
  | cons x xs ih => simp [squaresText, ih]

/-- The text printed for a field of letters, digits and `/` is the text of its
expansion. -/
theorem renderTokens_squares (f : List Char)
    (h : ∀ c ∈ f, c = '/' ∨ isalpha c = true ∨ isdigit c = true) :
    renderTokens f = squaresText (expand f) := by
  induction f with
  | nil => rfl
  | cons c f ih =>
    rw [renderTokens, expand, squaresText_append,
      renderToken_squares c (h c (List.mem_cons_self c f)),
      ih (fun d hd => h d (List.mem_cons_of_mem c hd))]

/-- The text of a sequence of squares and rank breaks determines the sequence. -/
theorem squaresText_injective (xs : List Square) :
    ∀ ys : List Square, squaresText xs = squaresText ys → xs = ys := by
  induction xs with
  | nil =>
    intro ys h
    cases ys with
    | nil => rfl
    | cons y ys => cases y <;> simp [squaresText, squareText] at h
  | cons x xs ih =>
    intro ys h
    cases ys with
    | nil => cases x <;> simp [squaresText, squareText] at h
    | cons y ys =>
      cases x with
      | piece w l =>
        cases y with
        | piece w' l' =>
          simp only [squaresText, squareText, List.cons_append, List.nil_append,
            List.cons.injEq, true_and] at h
          obtain ⟨hw, hl, ht⟩ := h
          have hw' : w = w' := by
            cases w <;> cases w' <;> first | rfl | (revert hw; decide)
          rw [hw', hl, ih ys ht]
        | empty =>
          exfalso
          cases w <;> (revert h; simp [squaresText, squareText])
        | rankBreak =>
          exfalso
          cases w <;> (revert h; simp [squaresText, squareText])
      | empty =>
        cases y with
        | piece w' l' =>
          exfalso
          cases w' <;> (revert h; simp [squaresText, squareText])
        | empty =>
          simp only [squaresText, squareText] at h
          rw [ih ys (List.append_cancel_left h)]
        | rankBreak =>
          exfalso
          revert h
          simp [squaresText, squareText]
      | rankBreak =>
        cases y with
        | piece w' l' =>
          exfalso
          cases w' <;> (revert h; simp [squaresText, squareText])
        | empty =>
          exfalso
          revert h
          simp [squaresText, squareText]
        | rankBreak =>
          simp only [squaresText, squareText] at h
          rw [ih ys (List.append_cancel_left h)]

/-- Two fields of letters, digits and `/` print the same text exactly when they have
the same expansion. -/
theorem renderTokens_eq_iff (f g : List Char)
    (hf : ∀ c ∈ f, c = '/' ∨ isalpha c = true ∨ isdigit c = true)
    (hg : ∀ c ∈ g, c = '/' ∨ isalpha c = true ∨ isdigit c = true) :
    renderTokens f = renderTokens g ↔ expand f = expand g := by
  rw [renderTokens_squares f hf, renderTokens_squares g hg]
  constructor
  · exact squaresText_injective (expand f) (expand g)
  · intro h
    rw [h]

/-! ## Characters rendered as the separator -/

theorem renderToken_slashOthers (c : Char) : renderToken (slashOthers c) = renderToken c := by
  by_cases h : (isalpha c || isdigit c) = true
  · simp [slashOthers, h]
  · have h' : (isalpha c || isdigit c) = false := by simpa using h
    have hs : slashOthers c = '/' := by simp [slashOthers, h']
    simp only [Bool.or_eq_false_iff] at h'
    rw [hs, renderToken_slash, renderToken_other c h'.1 h'.2]

theorem renderTokens_slashOthers (field : List Char) :
    renderTokens (field.map slashOthers) = renderTokens field := by
  induction field with
  | nil => rfl
  | cons c field ih => rw [List.map_cons, renderTokens, renderTokens, renderToken_slashOthers, ih]

theorem slashOthers_ok (c : Char) (hsp : c ≠ ' ') (hnul : c ≠ '\x00') (hb : c.toNat < 256) :
    slashOthers c ≠ ' ' ∧ slashOthers c ≠ '\x00' ∧ (slashOthers c).toNat < 256 := by
  by_cases h : (isalpha c || isdigit c) = true
  · simp only [slashOthers, h, if_true]
    exact ⟨hsp, hnul, hb⟩
  · have h' : (isalpha c || isdigit c) = false := by simpa using h
    have hs : slashOthers c = '/' := by simp [slashOthers, h']
    rw [hs]
    decide

/-! ## The checks of `main` -/

theorem strcmp_eq_zero (s : List Char) :
    ∀ t : List Char, s.length = t.length → (strcmp s t = 0 ↔ s = t) := by
  induction s with
  | nil =>
    intro t h
    cases t with
    | nil => simp [strcmp]
    | cons b t => simp at h
  | cons a s ih =>
    intro t h
    cases t with
    | nil => simp at h
    | cons b t =>
      have hl : s.length = t.length := by simpa using h
      by_cases e : a = b
      · subst e
        simp [strcmp, ih t hl]
      · have hne : (a.toNat : Int) - (b.toNat : Int) ≠ 0 := by
          intro h0
          exact e (char_eq_of_toNat a b (by omega))
        simp [strcmp, e, hne]

/-- The extension test of `main` on a name of four characters or more. -/
theorem ext_test (prog name : List Char) (h4 : 4 ≤ name.length) :
    strcmp (stringAt prog name (((strlen name : Nat) : Int) - 1 - 3)) ".fen".toList = 0 ↔
      ".fen".toList <:+ name := by
  have hl : (name.drop (name.length - 4)).length = (".fen".toList).length := by
    rw [List.length_drop]
    have : (".fen".toList).length = 4 := rfl
    omega
  rw [stringAt_inside prog name h4, strcmp_eq_zero _ _ hl, List.suffix_iff_eq_drop]
  have : (".fen".toList).length = 4 := rfl
  rw [this]
  exact eq_comm

/-- Two strings that `strcmp` finds equal: the first is at least as long as the second,
when the second holds no zero byte. -/
theorem strcmp_zero_length (s : List Char) :
    ∀ t : List Char, (∀ c ∈ t, c ≠ '\x00') → strcmp s t = 0 → t.length ≤ s.length := by
  induction s with
  | nil =>
    intro t ht h
    cases t with
    | nil => simp
    | cons b t =>
      exfalso
      simp only [strcmp] at h
      exact ht b (List.mem_cons_self b t) (char_eq_of_toNat b '\x00' (by
        have : ('\x00' : Char).toNat = 0 := rfl
        omega))
  | cons a s ih =>
    intro t ht h
    cases t with
    | nil => simp
    | cons b t =>
      by_cases e : a = b
      · simp only [strcmp, e, if_true] at h
        have := ih t (fun c hc => ht c (List.mem_cons_of_mem b hc)) h
        simp only [List.length_cons]
        omega
      · exfalso
        simp only [strcmp, e, if_false] at h
        exact e (char_eq_of_toNat a b (by omega))

theorem takeWhile_append_singleton_length (l : List Char) :
    ((l ++ ['\x00']).takeWhile (fun c => c != '\x00')).length ≤ l.length := by
  induction l with
  | nil => simp [List.takeWhile]
  | cons a l ih =>
    rw [List.cons_append, List.takeWhile_cons]
    split
    · simp only [List.length_cons]
      omega
    · simp

/-- The string read before the start of a name shorter than four characters has at
most three characters. -/
theorem stringAt_before_length (prog name : List Char) (h : name.length < 4) :
    (stringAt prog name (((strlen name : Nat) : Int) - 1 - 3)).length ≤ 3 := by
  have h1 : ((strlen name : Nat) : Int) - 1 - 3 < 0 := by
    simp only [strlen]
    omega
  have h2 : (-(((strlen name : Nat) : Int) - 1 - 3)).toNat = 4 - name.length := by
    simp only [strlen]
    omega
  simp only [stringAt, h1, if_true, h2]
  by_cases hp : 4 - name.length ≤ prog.length + 1
  · have hle : prog.length + 1 - (4 - name.length) ≤ prog.length := by omega
    rw [List.drop_append_of_le_length hle]
    have := takeWhile_append_singleton_length (prog.drop (prog.length + 1 - (4 - name.length)))
    rw [List.length_drop] at this
    omega
  · have e : prog.length + 1 - (4 - name.length) = 0 := by omega
    rw [e, List.drop_zero]
    have := takeWhile_append_singleton_length prog
    omega

theorem main_argc (argv : List (List Char)) (fopen : List Char → Option (List Char))
    (h : argv.length ≠ 2) :
    main argv fopen = .ok ("usage: ./fen-printer fen_file.fen\n".toList, 1) := by
  match argv with
  | [] => rfl
  | [_] => rfl
  | [_, _] => simp at h
  | _ :: _ :: _ :: _ => rfl

/-- On a file name shorter than four characters `main` returns 2: the string read
before the name is too short to be `.fen`. -/
theorem main_short (prog name : List Char) (fopen : List Char → Option (List Char))
    (h : name.length < 4) :
    main [prog, name] fopen = .ok ("ERROR: invalid .fen file.\n".toList, 2) := by
  have h2 : strcmp (stringAt prog name (((strlen name : Nat) : Int) - 1 - 3)) ".fen".toList ≠ 0 := by
    intro e
    have h3 := strcmp_zero_length _ ".fen".toList (by decide) e
    have h4 := stringAt_before_length prog name h
    have : (".fen".toList).length = 4 := rfl
    omega
  unfold main
  simp only [h2, ne_eq, not_false_eq_true, if_true]

theorem suffix_length (name : List Char) (h : ".fen".toList <:+ name) : 4 ≤ name.length := by
  obtain ⟨stem, rfl⟩ := h
  simp

theorem main_not_fen (prog name : List Char) (fopen : List Char → Option (List Char))
    (h : ¬ ".fen".toList <:+ name) :
    main [prog, name] fopen = .ok ("ERROR: invalid .fen file.\n".toList, 2) := by
  by_cases h4 : name.length < 4
  · exact main_short prog name fopen h4
  · have h2 : strcmp (stringAt prog name (((strlen name : Nat) : Int) - 1 - 3)) ".fen".toList ≠ 0 :=
      fun e => h ((ext_test prog name (by omega)).mp e)
    unfold main
    simp only [h2, ne_eq, not_false_eq_true, if_true]

theorem main_suffix (prog name : List Char) (fopen : List Char → Option (List Char))
    (h : ".fen".toList <:+ name) :
    main [prog, name] fopen =
      match fopen name with
      | none => .ok ("ERROR: could not open file.\n".toList, 3)
      | some file => printBoard name file := by
  obtain ⟨stem, rfl⟩ := h
  exact main_fen prog stem fopen

/-- Lines 119-167 return 0 whenever they return. -/
theorem printBoard_code (file_name file out : List Char) (code : Int)
    (h : printBoard file_name file = .ok (out, code)) : code = 0 := by
  unfold printBoard at h
  split at h
  · simp at h
  · split at h
    · simp at h
    · simp only [Except.ok.injEq, Prod.mk.injEq] at h
      exact h.2.symm

/-- The four ways `main` can go. -/
theorem main_cases (argv : List (List Char)) (fopen : List Char → Option (List Char)) :
    (argv.length ≠ 2 ∧
      main argv fopen = .ok ("usage: ./fen-printer fen_file.fen\n".toList, 1)) ∨
    (∃ prog name, argv = [prog, name] ∧ ¬ ".fen".toList <:+ name ∧
      main argv fopen = .ok ("ERROR: invalid .fen file.\n".toList, 2)) ∨
    (∃ prog name, argv = [prog, name] ∧ ".fen".toList <:+ name ∧ fopen name = none ∧
      main argv fopen = .ok ("ERROR: could not open file.\n".toList, 3)) ∨
    (∃ prog name file, argv = [prog, name] ∧ ".fen".toList <:+ name ∧
      fopen name = some file ∧ main argv fopen = printBoard name file) := by
  by_cases hl : argv.length = 2
  · obtain ⟨prog, name, rfl⟩ : ∃ prog name, argv = [prog, name] := by
      match argv, hl with
      | [a, b], _ => exact ⟨a, b, rfl⟩
    right
    by_cases hs : ".fen".toList <:+ name
    · right
      have hm := main_suffix prog name fopen hs
      cases ho : fopen name with
      | none =>
        rw [ho] at hm
        exact Or.inl ⟨prog, name, rfl, hs, ho, hm⟩
      | some file =>
        rw [ho] at hm
        exact Or.inr ⟨prog, name, file, rfl, hs, ho, hm⟩
    · exact Or.inl ⟨prog, name, rfl, hs, main_not_fen prog name fopen hs⟩
  · exact Or.inl ⟨hl, main_argc argv fopen hl⟩

/-! ## The claims of the specification -/

/-- C1: for every field made of exactly 8 valid rank descriptors (letters and digits
`1` to `8`, standing for 8 squares) separated by `/`, whatever follows the
field's space and whatever the file name, the text printed between the two
lines of dashes is 8 lines; each line is 25 characters long before its
newline, holds no newline, and is 8 cells of `|` and two characters (two
spaces, or `w` or `b` and an uppercase letter) and one closing `|`. -/
theorem valid_field_renders_eight_lines (file_name rest : List Char)
    (ranks : List (List Char)) (h8 : ranks.length = 8)
    (hv : ∀ r ∈ ranks, validRank r = true) :
    ∃ rows : List (List (Char × Char)),
      rows.length = 8 ∧
      (∀ row ∈ rows, row.length = 8 ∧ (lineText row).length = 25 ∧ '\n' ∉ lineText row ∧
        ∀ cell ∈ row, cellOk cell = true) ∧
      printBoard file_name (joinRanks ranks ++ ' ' :: rest) =
        .ok ("\n".toList ++ file_name ++ "\n".toList ++ dashes ++
          unlines (rows.map lineText) ++ dashes, 0) := by
  have hchars := validField_chars ranks hv
  refine ⟨ranks.map rankCells, by simp [h8], ?_, ?_⟩
  · intro row hrow
    obtain ⟨r, hr, rfl⟩ := List.mem_map.mp hrow
    have hlen : (rankCells r).length = 8 := by
      rw [rankCells_length, validRank_squares r (hv r hr)]
    exact ⟨hlen, by rw [lineText_length, hlen], lineText_no_newline _ (rankCells_ok r),
      rankCells_ok r⟩
  · rw [printBoard_field file_name (joinRanks ranks) rest (validField_length ranks h8 hv)
      (fun c hc => (fieldChar_ok c (hchars c hc)).1)
      (fun c hc => (fieldChar_ok c (hchars c hc)).2.1)
      (fun c hc => (fieldChar_ok c (hchars c hc)).2.2)]
    cases ranks with
    | nil => simp at h8
    | cons r rs =>
      rw [render_joinRanks rs r, List.map_map]
      have hmap : List.map (fun r => renderTokens r ++ ['|']) (r :: rs) =
          List.map (lineText ∘ rankCells) (r :: rs) := by
        apply List.map_congr_left
        intro d hd
        exact rank_line d (fun c hc => by
          rcases validRank_chars d (hv d hd) c hc with h | h
          · exact Or.inl h
          · exact Or.inr (isDigit18_isdigit c h))
      rw [hmap]

/-- Witness of C1: the field of the second sample board of the source header. -/
theorem valid_field_renders_eight_lines_witness :
    ∃ rows : List (List (Char × Char)),
      rows.length = 8 ∧
      (∀ row ∈ rows, row.length = 8 ∧ (lineText row).length = 25 ∧ '\n' ∉ lineText row ∧
        ∀ cell ∈ row, cellOk cell = true) ∧
      printBoard "game.fen".toList
          (joinRanks ["2k2r2".toList, "ppp5".toList, "1b3q2".toList, "3nN3".toList,
            "PP1Pp1Q1".toList, "2P1P2P".toList, "5PP1".toList, "2R1KR2".toList] ++
            ' ' :: "b - - 0 1".toList) =
        .ok ("\n".toList ++ "game.fen".toList ++ "\n".toList ++ dashes ++
          unlines (rows.map lineText) ++ dashes, 0) :=
  valid_field_renders_eight_lines "game.fen".toList "b - - 0 1".toList
    ["2k2r2".toList, "ppp5".toList, "1b3q2".toList, "3nN3".toList,
      "PP1Pp1Q1".toList, "2P1P2P".toList, "5PP1".toList, "2R1KR2".toList]
    (by decide) (by decide)

set_option maxRecDepth 100000 in
/-- C2: rendering the field `rnbqkbnr/pppppppp/8/8/8/8/PPPPPPPP/RNBQKBNR`, whatever
follows its space and whatever the file name, prints between the two lines of
dashes exactly the 8 rank lines of the left sample board of the source
header. -/
theorem start_position_renders_sample_board (file_name rest : List Char) :
    printBoard file_name
        ("rnbqkbnr/pppppppp/8/8/8/8/PPPPPPPP/RNBQKBNR".toList ++ ' ' :: rest) =
      .ok ("\n".toList ++ file_name ++ "\n".toList ++ dashes ++
        unlines ["|bR|bN|bB|bQ|bK|bB|bN|bR|".toList,
          "|bP|bP|bP|bP|bP|bP|bP|bP|".toList,
          "|  |  |  |  |  |  |  |  |".toList,
          "|  |  |  |  |  |  |  |  |".toList,
          "|  |  |  |  |  |  |  |  |".toList,
          "|  |  |  |  |  |  |  |  |".toList,
          "|wP|wP|wP|wP|wP|wP|wP|wP|".toList,
          "|wR|wN|wB|wQ|wK|wB|wN|wR|".toList] ++ dashes, 0) := by
  rw [printBoard_field file_name _ rest (by decide) (by decide) (by decide) (by decide)]
  have h : renderTokens "rnbqkbnr/pppppppp/8/8/8/8/PPPPPPPP/RNBQKBNR".toList ++ "|\n".toList =
      unlines ["|bR|bN|bB|bQ|bK|bB|bN|bR|".toList,
          "|bP|bP|bP|bP|bP|bP|bP|bP|".toList,
          "|  |  |  |  |  |  |  |  |".toList,
          "|  |  |  |  |  |  |  |  |".toList,
          "|  |  |  |  |  |  |  |  |".toList,
          "|  |  |  |  |  |  |  |  |".toList,
          "|wP|wP|wP|wP|wP|wP|wP|wP|".toList,
          "|wR|wN|wB|wQ|wK|wB|wN|wR|".toList] := by decide
  rw [h]

set_option maxRecDepth 100000 in
/-- C3: the rank descriptor `8` alone renders as the line `|  |  |  |  |  |  |  |  |`,
and the field `8/8/8/8/8/8/8/8` renders as exactly 8 such lines, whatever
follows the field's space and whatever the file name. -/
theorem empty_ranks_render_blank_lines (file_name rest : List Char) :
    printBoard file_name ("8".toList ++ ' ' :: rest) =
      .ok ("\n".toList ++ file_name ++ "\n".toList ++ dashes ++
        unlines ["|  |  |  |  |  |  |  |  |".toList] ++ dashes, 0) ∧
    printBoard file_name ("8/8/8/8/8/8/8/8".toList ++ ' ' :: rest) =
      .ok ("\n".toList ++ file_name ++ "\n".toList ++ dashes ++
        unlines (List.replicate 8 "|  |  |  |  |  |  |  |  |".toList) ++ dashes, 0) := by
  constructor
  · rw [printBoard_field file_name _ rest (by decide) (by decide) (by decide) (by decide)]
    have h : renderTokens "8".toList ++ "|\n".toList =
        unlines ["|  |  |  |  |  |  |  |  |".toList] := by decide
    rw [h]
  · rw [printBoard_field file_name _ rest (by decide) (by decide) (by decide) (by decide)]
    have h : renderTokens "8/8/8/8/8/8/8/8".toList ++ "|\n".toList =
        unlines (List.replicate 8 "|  |  |  |  |  |  |  |  |".toList) := by decide
    rw [h]

/-- C4: the output is a function of the file name and of the field only.  For a field
of at most 71 bytes without space or zero byte there is one output, printed
whatever text follows the field's space; and two runs on the same file name
whose files agree up to and including the space that ends the field give the
same result, whatever follows that space (and whatever the field). -/
theorem output_depends_on_name_and_field_only (file_name field : List Char)
    (hlen : field.length ≤ 71) (hsp : ∀ c ∈ field, c ≠ ' ')
    (hnul : ∀ c ∈ field, c ≠ '\x00') (hb : ∀ c ∈ field, c.toNat < 256) :
    (∃ out : List Char, ∀ rest : List Char,
      printBoard file_name (field ++ ' ' :: rest) = .ok (out, 0)) ∧
    ∀ (prog1 prog2 r1 r2 : List Char) (fopen1 fopen2 : List Char → Option (List Char)),
      fopen1 file_name = some (field ++ ' ' :: r1) →
      fopen2 file_name = some (field ++ ' ' :: r2) →
      main [prog1, file_name] fopen1 = main [prog2, file_name] fopen2 := by
  constructor
  · exact ⟨_, fun rest => printBoard_field file_name field rest hlen hsp hnul hb⟩
  · intro prog1 prog2 r1 r2 fopen1 fopen2 h1 h2
    by_cases hs : ".fen".toList <:+ file_name
    · rw [main_suffix prog1 file_name fopen1 hs, main_suffix prog2 file_name fopen2 hs, h1, h2]
      exact printBoard_rest file_name field r1 r2
    · rw [main_not_fen prog1 file_name fopen1 hs, main_not_fen prog2 file_name fopen2 hs]

/-- Witness of C4: the field `4P3/8` in the file `a.fen`. -/
theorem output_depends_on_name_and_field_only_witness :
    (∃ out : List Char, ∀ rest : List Char,
      printBoard "a.fen".toList ("4P3/8".toList ++ ' ' :: rest) = .ok (out, 0)) ∧
    ∀ (prog1 prog2 r1 r2 : List Char) (fopen1 fopen2 : List Char → Option (List Char)),
      fopen1 "a.fen".toList = some ("4P3/8".toList ++ ' ' :: r1) →
      fopen2 "a.fen".toList = some ("4P3/8".toList ++ ' ' :: r2) →
      main [prog1, "a.fen".toList] fopen1 = main [prog2, "a.fen".toList] fopen2 :=
  output_depends_on_name_and_field_only "a.fen".toList "4P3/8".toList
    (by decide) (by decide) (by decide) (by decide)

set_option maxRecDepth 100000 in
/-- C5: for every letter `c`, `print_piece` prints exactly three characters: `|`, a
prefix and a letter; the prefix is `w` if and only if `c` is uppercase and `b`
if and only if `c` is lowercase, and the letter is `c` uppercased.  The twelve
piece letters print as `|wK |wQ |wR |wB |wN |wP |bK |bQ |bR |bB |bN |bP`, and
the rank `rnbqkbnr` alone renders as the line `|bR|bN|bB|bQ|bK|bB|bN|bR|`. -/
theorem print_piece_case_mapping (c : Char) (h : isalpha c = true)
    (file_name rest : List Char) :
    (∃ p : Char, print_piece c = ['|', p, toupper c] ∧
      (p = 'w' ↔ isupper c = true) ∧ (p = 'b' ↔ islower c = true)) ∧
    "KQRBNPkqrbnp".toList.map print_piece =
      ["|wK".toList, "|wQ".toList, "|wR".toList, "|wB".toList, "|wN".toList, "|wP".toList,
        "|bK".toList, "|bQ".toList, "|bR".toList, "|bB".toList, "|bN".toList, "|bP".toList] ∧
    printBoard file_name ("rnbqkbnr".toList ++ ' ' :: rest) =
      .ok ("\n".toList ++ file_name ++ "\n".toList ++ dashes ++
        unlines ["|bR|bN|bB|bQ|bK|bB|bN|bR|".toList] ++ dashes, 0) := by
  refine ⟨?_, by decide, ?_⟩
  · by_cases hu : isupper c = true
    · have hl : islower c = false := by
        simp only [isupper, islower, decide_eq_true_eq, decide_eq_false_iff_not] at hu ⊢
        omega
      refine ⟨'w', ?_, by simp [hu], by simp [hl]⟩
      simp [print_piece, toupper, hu, hl]
    · have hl : islower c = true := by
        simp only [isalpha, Bool.or_eq_true] at h
        rcases h with h | h
        · exact absurd h hu
        · exact h
      refine ⟨'b', ?_, by simp [hu], by simp [hl]⟩
      simp [print_piece, hu, hl]
  · rw [printBoard_field file_name _ rest (by decide) (by decide) (by decide) (by decide)]
    have e : renderTokens "rnbqkbnr".toList ++ "|\n".toList =
        unlines ["|bR|bN|bB|bQ|bK|bB|bN|bR|".toList] := by decide
    rw [e]

/-- Witness of C5: the letter `q`. -/
theorem print_piece_case_mapping_witness :
    isalpha 'q' = true ∧ print_piece 'q' = ['|', 'b', 'Q'] ∧
    ((∃ p : Char, print_piece 'q' = ['|', p, toupper 'q'] ∧
      (p = 'w' ↔ isupper 'q' = true) ∧ (p = 'b' ↔ islower 'q' = true)) ∧
    "KQRBNPkqrbnp".toList.map print_piece =
      ["|wK".toList, "|wQ".toList, "|wR".toList, "|wB".toList, "|wN".toList, "|wP".toList,
        "|bK".toList, "|bQ".toList, "|bR".toList, "|bB".toList, "|bN".toList, "|bP".toList] ∧
    printBoard "a.fen".toList ("rnbqkbnr".toList ++ ' ' :: "w".toList) =
      .ok ("\n".toList ++ "a.fen".toList ++ "\n".toList ++ dashes ++
        unlines ["|bR|bN|bB|bQ|bK|bB|bN|bR|".toList] ++ dashes, 0)) :=
  ⟨by decide, by decide,
    print_piece_case_mapping 'q' (by decide) "a.fen".toList "w".toList⟩

set_option maxRecDepth 100000 in
/-- C6: for every digit token, of integer value `N` (as `atoi` reads it), the renderer
prints exactly `N` consecutive empty cells, each a `|` and two spaces, and
nothing else; and the rank `4P3` alone renders as the line
`|  |  |  |  |wP|  |  |  |`. -/
theorem digit_renders_empty_cells (c : Char) (h : isdigit c = true)
    (file_name rest : List Char) :
    atoi [c] = ((c.toNat - 48 : Nat) : Int) ∧
    renderToken c = (List.replicate (c.toNat - 48) "|  ".toList).flatten ∧
    printBoard file_name ("4P3".toList ++ ' ' :: rest) =
      .ok ("\n".toList ++ file_name ++ "\n".toList ++ dashes ++
        unlines ["|  |  |  |  |wP|  |  |  |".toList] ++ dashes, 0) := by
  have hd := h
  simp only [isdigit, decide_eq_true_eq] at hd
  have ha : isalpha c = false := by
    simp only [isalpha, isupper, islower, Bool.or_eq_false_iff, decide_eq_false_iff_not]
    omega
  refine ⟨?_, ?_, ?_⟩
  · rw [atoi_digit c h]
    omega
  · simp only [renderToken, ha, Bool.false_eq_true, if_false, h, if_true,
      print_empty_squares_digit c h, emptyLoop_replicate]
  · rw [printBoard_field file_name _ rest (by decide) (by decide) (by decide) (by decide)]
    have e : renderTokens "4P3".toList ++ "|\n".toList =
        unlines ["|  |  |  |  |wP|  |  |  |".toList] := by decide
    rw [e]

/-- Witness of C6: the digit `3`. -/
theorem digit_renders_empty_cells_witness :
    isdigit '3' = true ∧ renderToken '3' = "|  |  |  ".toList ∧
    (atoi ['3'] = ((('3' : Char).toNat - 48 : Nat) : Int) ∧
    renderToken '3' = (List.replicate (('3' : Char).toNat - 48) "|  ".toList).flatten ∧
    printBoard "a.fen".toList ("4P3".toList ++ ' ' :: "w".toList) =
      .ok ("\n".toList ++ "a.fen".toList ++ "\n".toList ++ dashes ++
        unlines ["|  |  |  |  |wP|  |  |  |".toList] ++ dashes, 0)) :=
  ⟨by decide, by decide, digit_renders_empty_cells '3' (by decide) "a.fen".toList "w".toList⟩

/-- C7: for every file name and every field of at most 71 bytes without space or zero
byte, whatever its tokens and whatever follows its space, the complete output
of lines 119-167 is a newline, the file name, a newline, 25 dashes and a
newline, the rendered tokens, the closing `|` and newline of the last rank,
and again 25 dashes and a newline; and the value returned is 0.  That is the
output and the result of `main` whenever it is called with one argument ending
in `.fen` that names such a file. -/
theorem complete_output (file_name field rest : List Char)
    (hlen : field.length ≤ 71) (hsp : ∀ c ∈ field, c ≠ ' ')
    (hnul : ∀ c ∈ field, c ≠ '\x00') (hb : ∀ c ∈ field, c.toNat < 256) :
    printBoard file_name (field ++ ' ' :: rest) =
      .ok ("\n".toList ++ file_name ++ "\n".toList ++
        (List.replicate 25 '-' ++ "\n".toList) ++ (renderTokens field ++ "|\n".toList) ++
        (List.replicate 25 '-' ++ "\n".toList), 0) ∧
    ∀ (prog stem : List Char) (fopen : List Char → Option (List Char)),
      fopen (stem ++ ".fen".toList) = some (field ++ ' ' :: rest) →
      main [prog, stem ++ ".fen".toList] fopen =
        .ok ("\n".toList ++ (stem ++ ".fen".toList) ++ "\n".toList ++
          (List.replicate 25 '-' ++ "\n".toList) ++ (renderTokens field ++ "|\n".toList) ++
          (List.replicate 25 '-' ++ "\n".toList), 0) := by
  constructor
  · rw [printBoard_field file_name field rest hlen hsp hnul hb, dashes_eq]
  · intro prog stem fopen ho
    rw [main_fen, ho]
    simp only []
    rw [printBoard_field _ field rest hlen hsp hnul hb, dashes_eq]

set_option maxRecDepth 100000 in
/-- Witness of C7: a field of three ranks of unequal length, with the digits `0` and `9`. -/
theorem complete_output_witness :
    main ["fen-printer".toList, "odd.fen".toList]
        (fun _ => some "k9/0Q/x w - - 0 1".toList) =
      .ok ("\nodd.fen\n-------------------------\n|bK|  |  |  |  |  |  |  |  |  |\n|wQ|\n|bX|\n-------------------------\n".toList, 0) ∧
    (printBoard "odd.fen".toList ("k9/0Q/x".toList ++ ' ' :: "w - - 0 1".toList) =
      .ok ("\n".toList ++ "odd.fen".toList ++ "\n".toList ++
        (List.replicate 25 '-' ++ "\n".toList) ++
        (renderTokens "k9/0Q/x".toList ++ "|\n".toList) ++
        (List.replicate 25 '-' ++ "\n".toList), 0) ∧
    ∀ (prog stem : List Char) (fopen : List Char → Option (List Char)),
      fopen (stem ++ ".fen".toList) = some ("k9/0Q/x".toList ++ ' ' :: "w - - 0 1".toList) →
      main [prog, stem ++ ".fen".toList] fopen =
        .ok ("\n".toList ++ (stem ++ ".fen".toList) ++ "\n".toList ++
          (List.replicate 25 '-' ++ "\n".toList) ++
          (renderTokens "k9/0Q/x".toList ++ "|\n".toList) ++
          (List.replicate 25 '-' ++ "\n".toList), 0)) :=
  ⟨by decide, complete_output "odd.fen".toList "k9/0Q/x".toList "w - - 0 1".toList
    (by decide) (by decide) (by decide) (by decide)⟩

set_option maxRecDepth 100000 in
/-- Counterexample to C8: the input text `8/8/8/8/8/8/8/8` contains no space; the
scanner does not stop at its end with the text as the field, but stores past
the end of the buffer, and `main` prints no board for it. -/
theorem no_space_input_overruns_buffer :
    (∀ c ∈ "8/8/8/8/8/8/8/8".toList, c ≠ ' ') ∧
    scan "8/8/8/8/8/8/8/8".toList = .error (.outOfBounds 72) ∧
    scan "8/8/8/8/8/8/8/8".toList ≠
      .ok ("8/8/8/8/8/8/8/8".toList ++ calloc (SQUARES + RANKS - 15)) ∧
    main ["fen-printer".toList, "empty.fen".toList] (fun _ => some "8/8/8/8/8/8/8/8".toList) =
      .error (.outOfBounds 72) := by
  decide

/-- C8, amended: the scanner stops at a space and nowhere else.  For every input text
of bytes that contains no space, the scanner does not stop at the end of the
input: it goes on storing the end-of-file value until its store at index 72
falls outside the 72-byte buffer, so that lines 119-167 neither end normally
nor render the text.  For every field of at most 71 bytes without a space
that a space follows, the scanner stops at that space and the scanned field
is the text before it, followed in the buffer by the zero bytes left. -/
theorem scanner_stops_only_at_space (file_name file field rest : List Char)
    (hsp : ∀ c ∈ file, c ≠ ' ') (hb : ∀ c ∈ file, c.toNat < 256)
    (hlen : field.length ≤ 71) (hfsp : ∀ c ∈ field, c ≠ ' ')
    (hfb : ∀ c ∈ field, c.toNat < 256) :
    scan file = .error (.outOfBounds 72) ∧
    printBoard file_name file = .error (.outOfBounds 72) ∧
    scan (field ++ ' ' :: rest) = .ok (field ++ calloc (SQUARES + RANKS - field.length)) := by
  have h72 : SQUARES + RANKS = 72 := rfl
  refine ⟨scan_no_space file hsp hb, ?_, scan_field field rest (by omega) hfsp hfb⟩
  unfold printBoard
  rw [scan_no_space file hsp hb]

set_option maxRecDepth 100000 in
/-- Witness of C8, amended: the text `8/8` with and without a space after it. -/
theorem scanner_stops_only_at_space_witness :
    scan "8/8".toList = .error (.outOfBounds 72) ∧
    printBoard "a.fen".toList "8/8".toList = .error (.outOfBounds 72) ∧
    scan ("8/8".toList ++ ' ' :: "w".toList) =
      .ok ("8/8".toList ++ calloc (SQUARES + RANKS - "8/8".toList.length)) :=
  scanner_stops_only_at_space "a.fen".toList "8/8".toList "8/8".toList "w".toList
    (by decide) (by decide) (by decide) (by decide) (by decide)

set_option maxRecDepth 100000 in
/-- Counterexample to C9: the field `4?4` holds the character `?`, which is outside
`A-Z`, `a-z`, `1-8` and `/`; the program reports no error: it prints two rank
lines and returns 0. -/
theorem malformed_field_is_rendered_example :
    isalpha '?' = false ∧ isDigit18 '?' = false ∧ '?' ≠ '/' ∧
    main ["fen-printer".toList, "bad.fen".toList] (fun _ => some "4?4 w - - 0 1".toList) =
      .ok ("\nbad.fen\n-------------------------\n|  |  |  |  |\n|  |  |  |  |\n-------------------------\n".toList, 0) := by
  decide

/-- C9, amended: for every field of at most 71 bytes without space or zero byte that
contains a character outside `A-Z`, `a-z`, `1-8` and `/`, the program reports
no error: it renders the field as it does any other and returns the success
result 0.  Each such character is rendered too: the digit `0` prints nothing,
the digit `9` prints nine empty cells, and any other one prints `|` and a
newline. -/
theorem malformed_field_is_rendered (file_name field rest : List Char)
    (hlen : field.length ≤ 71) (hsp : ∀ c ∈ field, c ≠ ' ')
    (hnul : ∀ c ∈ field, c ≠ '\x00') (hb : ∀ c ∈ field, c.toNat < 256)
    (_hbad : ∃ c ∈ field, isalpha c = false ∧ isDigit18 c = false ∧ c ≠ '/') :
    printBoard file_name (field ++ ' ' :: rest) =
      .ok ("\n".toList ++ file_name ++ "\n".toList ++ dashes ++
        (renderTokens field ++ "|\n".toList) ++ dashes, 0) ∧
    ∀ c ∈ field, isalpha c = false → isDigit18 c = false → c ≠ '/' →
      (c = '0' ∧ renderToken c = []) ∨ (c = '9' ∧ renderToken c = emptyLoop 9) ∨
        (isdigit c = false ∧ renderToken c = "|\n".toList) := by
  refine ⟨printBoard_field file_name field rest hlen hsp hnul hb, ?_⟩
  intro c _ ha h18 _
  by_cases hd : isdigit c = true
  · have hd' := hd
    simp only [isdigit, decide_eq_true_eq] at hd'
    simp only [isDigit18, decide_eq_false_iff_not] at h18
    have h09 : c.toNat = 48 ∨ c.toNat = 57 := by omega
    rcases h09 with h0 | h9
    · have e : c = '0' := char_eq_of_toNat c '0' h0
      subst e
      exact Or.inl ⟨rfl, by decide⟩
    · have e : c = '9' := char_eq_of_toNat c '9' h9
      subst e
      exact Or.inr (Or.inl ⟨rfl, by decide⟩)
  · have hd' : isdigit c = false := by simpa using hd
    exact Or.inr (Or.inr ⟨hd', renderToken_other c ha hd'⟩)

set_option maxRecDepth 100000 in
/-- Witness of C9, amended: the field `4?9`. -/
theorem malformed_field_is_rendered_witness :
    (∃ c ∈ "4?9".toList, isalpha c = false ∧ isDigit18 c = false ∧ c ≠ '/') ∧
    (printBoard "bad.fen".toList ("4?9".toList ++ ' ' :: "w".toList) =
      .ok ("\n".toList ++ "bad.fen".toList ++ "\n".toList ++ dashes ++
        (renderTokens "4?9".toList ++ "|\n".toList) ++ dashes, 0) ∧
    ∀ c ∈ "4?9".toList, isalpha c = false → isDigit18 c = false → c ≠ '/' →
      (c = '0' ∧ renderToken c = []) ∨ (c = '9' ∧ renderToken c = emptyLoop 9) ∨
        (isdigit c = false ∧ renderToken c = "|\n".toList)) :=
  ⟨by decide, malformed_field_is_rendered "bad.fen".toList "4?9".toList "w".toList
    (by decide) (by decide) (by decide) (by decide) (by decide)⟩

set_option maxRecDepth 100000 in
/-- Counterexample to C10: in the field `4-4` the character `-` is outside `A-Z`,
`a-z`, `0-9` and `/`, and removing it gives the field `44`; the two fields do
not render alike: `4-4` prints two lines of four cells, `44` one line of
eight. -/
theorem other_character_is_not_ignored_example :
    isOther '-' = true ∧
    "4-4".toList.filter (fun c => !isOther c) = "44".toList ∧
    printBoard "a.fen".toList "4-4 w".toList =
      .ok ("\na.fen\n-------------------------\n|  |  |  |  |\n|  |  |  |  |\n-------------------------\n".toList, 0) ∧
    printBoard "a.fen".toList "44 w".toList =
      .ok ("\na.fen\n-------------------------\n|  |  |  |  |  |  |  |  |\n-------------------------\n".toList, 0) ∧
    printBoard "a.fen".toList "4-4 w".toList ≠ printBoard "a.fen".toList "44 w".toList := by
  decide

/-- C10, amended: a character outside `A-Z`, `a-z`, `0-9` and `/` is not ignored by the
renderer: it takes the third branch, that of `/`, and contributes `|` and a
newline to the output.  So for every field of at most 71 bytes without space
or zero byte, the output for the field is longer than the output for the
field with those characters removed, by two characters for each of them. -/
theorem other_character_is_not_ignored (file_name field rest : List Char)
    (hlen : field.length ≤ 71) (hsp : ∀ c ∈ field, c ≠ ' ')
    (hnul : ∀ c ∈ field, c ≠ '\x00') (hb : ∀ c ∈ field, c.toNat < 256) :
    (∀ c : Char, isOther c = true → renderToken c = "|\n".toList) ∧
    ∃ out removed : List Char,
      printBoard file_name (field ++ ' ' :: rest) = .ok (out, 0) ∧
      printBoard file_name (field.filter (fun c => !isOther c) ++ ' ' :: rest) =
        .ok (removed, 0) ∧
      out.length = removed.length + 2 * field.countP isOther := by
  constructor
  · intro c ho
    simp only [isOther, Bool.not_eq_true', Bool.or_eq_false_iff] at ho
    exact renderToken_other c ho.1.1 ho.1.2
  · have hmem : ∀ c ∈ field.filter (fun c => !isOther c), c ∈ field :=
      fun c hc => (List.mem_filter.mp hc).1
    have hlen' : (field.filter (fun c => !isOther c)).length ≤ 71 :=
      Nat.le_trans (List.length_filter_le _ _) hlen
    refine ⟨_, _, printBoard_field file_name field rest hlen hsp hnul hb,
      printBoard_field file_name _ rest hlen' (fun c hc => hsp c (hmem c hc))
        (fun c hc => hnul c (hmem c hc)) (fun c hc => hb c (hmem c hc)), ?_⟩
    simp only [List.length_append, renderTokens_length_filter field]
    omega

set_option maxRecDepth 100000 in
/-- Witness of C10, amended: the field `4-4?`, with two characters outside the set. -/
theorem other_character_is_not_ignored_witness :
    "4-4?".toList.countP isOther = 2 ∧
    ((∀ c : Char, isOther c = true → renderToken c = "|\n".toList) ∧
    ∃ out removed : List Char,
      printBoard "a.fen".toList ("4-4?".toList ++ ' ' :: "w".toList) = .ok (out, 0) ∧
      printBoard "a.fen".toList
          ("4-4?".toList.filter (fun c => !isOther c) ++ ' ' :: "w".toList) =
        .ok (removed, 0) ∧
      out.length = removed.length + 2 * "4-4?".toList.countP isOther) :=
  ⟨by decide, other_character_is_not_ignored "a.fen".toList "4-4?".toList "w".toList
    (by decide) (by decide) (by decide) (by decide)⟩

/-- C11: every valid field (8 rank descriptors of letters and digits `1` to `8`, each
standing for 8 squares, joined by `/`) has at most 71 characters; so when such
a field followed by a space is scanned into the zeroed buffer of 72 bytes, the
scan ends without a store outside the buffer (the stores are at the indices
below the field's length, all below 72), and the buffer holds the field and at
least one zero byte after it. -/
theorem valid_field_fits_buffer (ranks : List (List Char)) (rest : List Char)
    (h8 : ranks.length = 8) (hv : ∀ r ∈ ranks, validRank r = true) :
    (joinRanks ranks).length ≤ 71 ∧
    (∀ i : Nat, i < (joinRanks ranks).length → i < SQUARES + RANKS) ∧
    scan (joinRanks ranks ++ ' ' :: rest) =
      .ok (joinRanks ranks ++ '\x00' :: calloc (71 - (joinRanks ranks).length)) ∧
    (joinRanks ranks ++ '\x00' :: calloc (71 - (joinRanks ranks).length)).length =
      SQUARES + RANKS := by
  have hlen := validField_length ranks h8 hv
  have hchars := validField_chars ranks hv
  have h72 : SQUARES + RANKS = 72 := rfl
  have e : SQUARES + RANKS - (joinRanks ranks).length =
      (71 - (joinRanks ranks).length) + 1 := by omega
  refine ⟨hlen, fun i hi => by omega, ?_, ?_⟩
  · rw [scan_field (joinRanks ranks) rest (by omega)
      (fun c hc => (fieldChar_ok c (hchars c hc)).1)
      (fun c hc => (fieldChar_ok c (hchars c hc)).2.2), e, calloc_succ]
  · simp only [List.length_append, List.length_cons, calloc, List.length_replicate]
    omega

set_option maxRecDepth 100000 in
/-- Witness of C11: the longest valid field, 64 letters and 7 separators. -/
theorem valid_field_fits_buffer_witness :
    (joinRanks (List.replicate 8 "pppppppp".toList)).length = 71 ∧
    ((joinRanks (List.replicate 8 "pppppppp".toList)).length ≤ 71 ∧
    (∀ i : Nat, i < (joinRanks (List.replicate 8 "pppppppp".toList)).length →
      i < SQUARES + RANKS) ∧
    scan (joinRanks (List.replicate 8 "pppppppp".toList) ++ ' ' :: "w".toList) =
      .ok (joinRanks (List.replicate 8 "pppppppp".toList) ++
        '\x00' :: calloc (71 - (joinRanks (List.replicate 8 "pppppppp".toList)).length)) ∧
    (joinRanks (List.replicate 8 "pppppppp".toList) ++
        '\x00' :: calloc (71 - (joinRanks (List.replicate 8 "pppppppp".toList)).length)).length =
      SQUARES + RANKS) :=
  ⟨by decide, valid_field_fits_buffer (List.replicate 8 "pppppppp".toList) "w".toList
    (by decide) (by decide)⟩

/-- C12: for every non-empty list of rank descriptors, each of letters and digits only,
the text rendered for the field that joins them by `/` (the text printed
before the closing line of dashes) is the concatenation, in order, of the
text of each descriptor's tokens alone followed by `|` and a newline; the
text of a descriptor holds no newline, so the number of rank lines printed is
the number of `/` in the field plus one.  The render loop is taken on a
buffer of any size that holds the field and a zero byte after it; for a field
of at most 71 characters this is the text between the lines of dashes in the
program's output. -/
theorem ranks_render_line_by_line (r : List Char) (rs : List (List Char)) (tail : List Char)
    (h : ∀ d ∈ r :: rs, ∀ c ∈ d, isalpha c = true ∨ isdigit c = true) :
    render (joinRanks (r :: rs) ++ '\x00' :: tail) =
      .ok ((r :: rs).map (fun d => renderTokens d ++ "|\n".toList)).flatten ∧
    (∀ d ∈ r :: rs, ∀ (t : List Char) (j : Nat),
      renderLoop (d ++ '\x00' :: t) j = .ok (renderTokens d) ∧ '\n' ∉ renderTokens d) ∧
    ((r :: rs).map (fun d => renderTokens d ++ "|\n".toList)).flatten.count '\n' =
      (joinRanks (r :: rs)).count '/' + 1 ∧
    ((joinRanks (r :: rs)).length ≤ 71 → ∀ file_name rest : List Char,
      printBoard file_name (joinRanks (r :: rs) ++ ' ' :: rest) =
        .ok ("\n".toList ++ file_name ++ "\n".toList ++ dashes ++
          ((r :: rs).map (fun d => renderTokens d ++ "|\n".toList)).flatten ++ dashes, 0)) := by
  have hchars := joinRanks_chars (r :: rs) h
  have hnul : ∀ c ∈ joinRanks (r :: rs), c ≠ '\x00' :=
    fun c hc => (fieldChar_ok c (hchars c hc)).2.1
  have htext : renderTokens (joinRanks (r :: rs)) ++ "|\n".toList =
      ((r :: rs).map (fun d => renderTokens d ++ "|\n".toList)).flatten := by
    rw [render_joinRanks rs r, unlines_eq_flatten]
  refine ⟨?_, ?_, ?_, ?_⟩
  · rw [render_nul _ tail hnul, htext]
  · intro d hd t j
    refine ⟨renderLoop_field d t (fun c hc => ?_) j, renderTokens_no_newline d (h d hd)⟩
    exact (fieldChar_ok c (Or.inr (h d hd c hc))).2.1
  · rw [count_newline_lines renderTokens (r :: rs)
      (fun d hd => renderTokens_no_newline d (h d hd)),
      count_slash_joinRanks rs r (fun d hd hmem => alnum_not_slash '/' (h d hd '/' hmem) rfl)]
    rfl
  · intro hlen file_name rest
    rw [printBoard_field file_name _ rest hlen
      (fun c hc => (fieldChar_ok c (hchars c hc)).1) hnul
      (fun c hc => (fieldChar_ok c (hchars c hc)).2.2), htext]

set_option maxRecDepth 100000 in
/-- Witness of C12: three rank descriptors of unequal length, one of them empty. -/
theorem ranks_render_line_by_line_witness :
    render ("k9//Q0".toList ++ '\x00' :: calloc 65) =
      .ok "|bK|  |  |  |  |  |  |  |  |  |\n|\n|wQ|\n".toList ∧
    (render (joinRanks ["k9".toList, [], "Q0".toList] ++ '\x00' :: calloc 65) =
      .ok (["k9".toList, [], "Q0".toList].map
        (fun d => renderTokens d ++ "|\n".toList)).flatten ∧
    (∀ d ∈ ["k9".toList, [], "Q0".toList], ∀ (t : List Char) (j : Nat),
      renderLoop (d ++ '\x00' :: t) j = .ok (renderTokens d) ∧ '\n' ∉ renderTokens d) ∧
    (["k9".toList, [], "Q0".toList].map
        (fun d => renderTokens d ++ "|\n".toList)).flatten.count '\n' =
      (joinRanks ["k9".toList, [], "Q0".toList]).count '/' + 1 ∧
    ((joinRanks ["k9".toList, [], "Q0".toList]).length ≤ 71 → ∀ file_name rest : List Char,
      printBoard file_name (joinRanks ["k9".toList, [], "Q0".toList] ++ ' ' :: rest) =
        .ok ("\n".toList ++ file_name ++ "\n".toList ++ dashes ++
          (["k9".toList, [], "Q0".toList].map
            (fun d => renderTokens d ++ "|\n".toList)).flatten ++ dashes, 0))) :=
  ⟨by decide, ranks_render_line_by_line "k9".toList [[], "Q0".toList] (calloc 65)
    (by decide)⟩

/-- C13: the render loop is one stateless pass over the buffer.  For all character
sequences `a` and `b` without zero byte, wherever the loop starts and whatever
follows the terminating zero byte, the text printed for `a` followed by `b` is
the text printed for `a` followed by the text printed for `b`; the text
printed for the empty sequence is empty; and the text printed for a sequence
is the concatenation of the texts of its tokens, each depending on the token
alone. -/
theorem render_loop_is_linear_pass (a b t1 t2 t3 : List Char) (j1 j2 j3 : Nat)
    (ha : ∀ c ∈ a, c ≠ '\x00') (hb : ∀ c ∈ b, c ≠ '\x00') :
    ∃ ta tb : List Char,
      renderLoop (a ++ '\x00' :: t1) j1 = .ok ta ∧
      renderLoop (b ++ '\x00' :: t2) j2 = .ok tb ∧
      renderLoop ((a ++ b) ++ '\x00' :: t3) j3 = .ok (ta ++ tb) ∧
      renderLoop ([] ++ '\x00' :: t3) j3 = .ok [] ∧
      ta = (a.map renderToken).flatten ∧ tb = (b.map renderToken).flatten := by
  refine ⟨renderTokens a, renderTokens b, renderLoop_field a t1 ha j1,
    renderLoop_field b t2 hb j2, ?_, renderLoop_field [] t3 (by simp) j3,
    renderTokens_eq_flatten a, renderTokens_eq_flatten b⟩
  rw [renderLoop_field (a ++ b) t3 (fun c hc => ?_) j3, renderTokens_append]
  rcases List.mem_append.mp hc with h | h
  · exact ha c h
  · exact hb c h

set_option maxRecDepth 100000 in
/-- Witness of C13: the sequences `4P` and `3/r`. -/
theorem render_loop_is_linear_pass_witness :
    renderLoop ("4P3/r".toList ++ '\x00' :: []) 0 = .ok "|  |  |  |  |wP|  |  |  |\n|bR".toList ∧
    ∃ ta tb : List Char,
      renderLoop ("4P".toList ++ '\x00' :: []) 0 = .ok ta ∧
      renderLoop ("3/r".toList ++ '\x00' :: "x".toList) 5 = .ok tb ∧
      renderLoop (("4P".toList ++ "3/r".toList) ++ '\x00' :: []) 0 = .ok (ta ++ tb) ∧
      renderLoop ([] ++ '\x00' :: []) 0 = .ok [] ∧
      ta = ("4P".toList.map renderToken).flatten ∧
      tb = ("3/r".toList.map renderToken).flatten :=
  ⟨by decide, render_loop_is_linear_pass "4P".toList "3/r".toList [] "x".toList [] 0 5 0
    (by decide) (by decide)⟩

/-- C14: the bound of 71 characters is tight.  For every input of bytes whose field
(the characters before the first space) has 72 characters or more, the
program accesses the buffer of 72 bytes at index 72, outside it: by a store
of the scanner when the field has 73 characters or more, and, when it has
exactly 72 characters none of which is the zero byte, by the read of the
render loop's sentinel test after a scan that filled the buffer.  A field of
71 characters or fewer is scanned and rendered within the buffer. -/
theorem capacity_bound_is_tight (file_name field rest : List Char)
    (hsp : ∀ c ∈ field, c ≠ ' ') (hb : ∀ c ∈ field, c.toNat < 256)
    (hlen : 72 ≤ field.length) (hnul : field.length = 72 → ∀ c ∈ field, c ≠ '\x00') :
    printBoard file_name (field ++ ' ' :: rest) = .error (.outOfBounds 72) ∧
    (73 ≤ field.length → scan (field ++ ' ' :: rest) = .error (.outOfBounds 72)) ∧
    (field.length = 72 →
      scan (field ++ ' ' :: rest) = .ok field ∧ render field = .error (.outOfBounds 72)) ∧
    ∀ f : List Char, f.length ≤ 71 → (∀ c ∈ f, c ≠ ' ') → (∀ c ∈ f, c ≠ '\x00') →
      (∀ c ∈ f, c.toNat < 256) →
      ∃ out : List Char, printBoard file_name (f ++ ' ' :: rest) = .ok (out, 0) := by
  have h72 : SQUARES + RANKS = 72 := rfl
  have hfull : field.length = 72 →
      scan (field ++ ' ' :: rest) = .ok field ∧ render field = .error (.outOfBounds 72) := by
    intro e
    refine ⟨?_, render_full field e (hnul e)⟩
    rw [scan_field field rest (by omega) hsp hb, h72, e]
    simp [calloc]
  refine ⟨?_, fun h => scan_long field rest h hsp hb, hfull,
    fun f hl h1 h2 h3 => ⟨_, printBoard_field file_name f rest hl h1 h2 h3⟩⟩
  unfold printBoard
  by_cases e : field.length = 72
  · rw [(hfull e).1]
    simp only []
    rw [(hfull e).2]
  · rw [scan_long field rest (by omega) hsp hb]

set_option maxRecDepth 100000 in
/-- Witness of C14: a field of 72 letters. -/
theorem capacity_bound_is_tight_witness :
    (List.replicate 72 'p').length = 72 ∧
    (printBoard "a.fen".toList (List.replicate 72 'p' ++ ' ' :: "w".toList) =
      .error (.outOfBounds 72) ∧
    (73 ≤ (List.replicate 72 'p').length →
      scan (List.replicate 72 'p' ++ ' ' :: "w".toList) = .error (.outOfBounds 72)) ∧
    ((List.replicate 72 'p').length = 72 →
      scan (List.replicate 72 'p' ++ ' ' :: "w".toList) = .ok (List.replicate 72 'p') ∧
      render (List.replicate 72 'p') = .error (.outOfBounds 72)) ∧
    ∀ f : List Char, f.length ≤ 71 → (∀ c ∈ f, c ≠ ' ') → (∀ c ∈ f, c ≠ '\x00') →
      (∀ c ∈ f, c.toNat < 256) →
      ∃ out : List Char, printBoard "a.fen".toList (f ++ ' ' :: "w".toList) = .ok (out, 0)) :=
  ⟨by decide, capacity_bound_is_tight "a.fen".toList (List.replicate 72 'p') "w".toList
    (by decide) (by decide) (by decide) (by decide)⟩

/-- Scanning and rendering a file of bytes without a space does not return. -/
theorem printBoard_no_space (file_name file : List Char) (hsp : ∀ c ∈ file, c ≠ ' ')
    (hb : ∀ c ∈ file, c.toNat < 256) :
    printBoard file_name file = .error (.outOfBounds 72) := by
  unfold printBoard
  rw [scan_no_space file hsp hb]

/-- Scanning and rendering a field of 73 bytes or more does not return. -/
theorem printBoard_long (file_name field rest : List Char) (hlen : 73 ≤ field.length)
    (hsp : ∀ c ∈ field, c ≠ ' ') (hb : ∀ c ∈ field, c.toNat < 256) :
    printBoard file_name (field ++ ' ' :: rest) = .error (.outOfBounds 72) := by
  unfold printBoard
  rw [scan_long field rest hlen hsp hb]

set_option maxRecDepth 100000 in
/-- Counterexample to C15: with two arguments, a file name that ends in `.fen` and a
file that opens, `main` does not return 0 when the file holds the start
position and a newline but no space, nor when its field has 73 letters: the
scanner stores outside the buffer and `main` returns no result. -/
theorem main_result_is_not_always_as_claimed :
    ".fen".toList <:+ "start.fen".toList ∧
    (∀ c ∈ "rnbqkbnr/pppppppp/8/8/8/8/PPPPPPPP/RNBQKBNR\n".toList, c ≠ ' ') ∧
    main ["fen-printer".toList, "start.fen".toList]
        (fun _ => some "rnbqkbnr/pppppppp/8/8/8/8/PPPPPPPP/RNBQKBNR\n".toList) =
      .error (.outOfBounds 72) ∧
    main ["fen-printer".toList, "start.fen".toList]
        (fun _ => some (List.replicate 73 'p' ++ " w - - 0 1".toList)) =
      .error (.outOfBounds 72) ∧
    ∀ out : List Char,
      main ["fen-printer".toList, "start.fen".toList]
          (fun _ => some "rnbqkbnr/pppppppp/8/8/8/8/PPPPPPPP/RNBQKBNR\n".toList) ≠
        .ok (out, 0) := by
  have h : main ["fen-printer".toList, "start.fen".toList]
        (fun _ => some "rnbqkbnr/pppppppp/8/8/8/8/PPPPPPPP/RNBQKBNR\n".toList) =
      .error (.outOfBounds 72) := by decide
  refine ⟨⟨"start".toList, rfl⟩, by decide, h, by decide, fun out e => ?_⟩
  rw [h] at e
  simp at e

/-- C15, amended: the three pre-core failures have distinct non-zero results checked in
a fixed order.  Whenever `main` returns, its result is 1 if and only if the
argument count is not 2; otherwise 2 if and only if the file name does not end
in `.fen`; otherwise 3 if and only if the file cannot be opened; otherwise 0;
and with the results 1, 2 and 3 only the error message is printed, no board.
`main` does return 1 for every argument count other than 2, 2 for every file
name that does not end in `.fen` (names shorter than four characters
included), 3 for every name ending in `.fen` whose file cannot be opened, and
0 with the board when the file holds a field of at most 71 bytes, without
zero byte, followed by a space.  In the remaining case `main` does not always
return 0: when the file holds no space, or a field of 73 bytes or more, the
scanner stores outside the buffer and `main` returns no result. -/
theorem main_result_codes (argv : List (List Char))
    (fopen : List Char → Option (List Char)) (out : List Char) (code : Int)
    (h : main argv fopen = .ok (out, code)) :
    (code = 1 ↔ argv.length ≠ 2) ∧
    (code = 2 ↔ ∃ prog name, argv = [prog, name] ∧ ¬ ".fen".toList <:+ name) ∧
    (code = 3 ↔ ∃ prog name, argv = [prog, name] ∧ ".fen".toList <:+ name ∧
      fopen name = none) ∧
    (code = 0 ↔ ∃ prog name file, argv = [prog, name] ∧ ".fen".toList <:+ name ∧
      fopen name = some file) ∧
    (code = 1 → out = "usage: ./fen-printer fen_file.fen\n".toList) ∧
    (code = 2 → out = "ERROR: invalid .fen file.\n".toList) ∧
    (code = 3 → out = "ERROR: could not open file.\n".toList) ∧
    (∀ (args : List (List Char)) (fo : List Char → Option (List Char)), args.length ≠ 2 →
      main args fo = .ok ("usage: ./fen-printer fen_file.fen\n".toList, 1)) ∧
    (∀ (prog name : List Char) (fo : List Char → Option (List Char)),
      ¬ ".fen".toList <:+ name →
      main [prog, name] fo = .ok ("ERROR: invalid .fen file.\n".toList, 2)) ∧
    (∀ (prog name : List Char) (fo : List Char → Option (List Char)),
      ".fen".toList <:+ name → fo name = none →
      main [prog, name] fo = .ok ("ERROR: could not open file.\n".toList, 3)) ∧
    (∀ (prog name field rest : List Char) (fo : List Char → Option (List Char)),
      ".fen".toList <:+ name → fo name = some (field ++ ' ' :: rest) →
      field.length ≤ 71 → (∀ c ∈ field, c ≠ ' ') → (∀ c ∈ field, c ≠ '\x00') →
      (∀ c ∈ field, c.toNat < 256) →
      main [prog, name] fo =
        .ok ("\n".toList ++ name ++ "\n".toList ++ dashes ++
          (renderTokens field ++ "|\n".toList) ++ dashes, 0)) ∧
    (∀ (prog name file : List Char) (fo : List Char → Option (List Char)),
      ".fen".toList <:+ name → fo name = some file →
      (∀ c ∈ file, c ≠ ' ') → (∀ c ∈ file, c.toNat < 256) →
      main [prog, name] fo = .error (.outOfBounds 72)) ∧
    (∀ (prog name field rest : List Char) (fo : List Char → Option (List Char)),
      ".fen".toList <:+ name → fo name = some (field ++ ' ' :: rest) →
      73 ≤ field.length → (∀ c ∈ field, c ≠ ' ') → (∀ c ∈ field, c.toNat < 256) →
      main [prog, name] fo = .error (.outOfBounds 72)) := by
  refine ⟨?_, ?_, ?_, ?_, ?_, ?_, ?_, main_argc, main_not_fen, ?_, ?_, ?_, ?_⟩
  all_goals first
    | (intro prog name fo hs ho
       rw [main_suffix prog name fo hs, ho])
    | (intro prog name field rest fo hs ho hlen hsp hnul hb
       rw [main_suffix prog name fo hs, ho]
       exact printBoard_field name field rest hlen hsp hnul hb)
    | (intro prog name file fo hs ho hsp hb
       rw [main_suffix prog name fo hs, ho]
       exact printBoard_no_space name file hsp hb)
    | (intro prog name field rest fo hs ho hlen hsp hb
       rw [main_suffix prog name fo hs, ho]
       exact printBoard_long name field rest hlen hsp hb)
    | skip
  all_goals
    rcases main_cases argv fopen with ⟨hl, hm⟩ | ⟨prog, name, rfl, hs, hm⟩ |
      ⟨prog, name, rfl, hs, ho, hm⟩ | ⟨prog, name, file, rfl, hs, ho, hm⟩
    · rw [hm] at h
      simp only [Except.ok.injEq, Prod.mk.injEq] at h
      obtain ⟨h1, h2⟩ := h
      subst h1 h2
      have hne : ∀ a b : List Char, argv ≠ [a, b] := fun a b e => hl (by rw [e]; rfl)
      simp [hl, hne]
    · rw [hm] at h
      simp only [Except.ok.injEq, Prod.mk.injEq] at h
      obtain ⟨h1, h2⟩ := h
      subst h1 h2
      have hs' : ¬ ['.', 'f', 'e', 'n'] <:+ name := hs
      first
        | (simp [hs']; done)
        | exact Iff.intro (fun _ => ⟨prog, name, rfl, hs⟩) (fun _ => rfl)
    · rw [hm] at h
      simp only [Except.ok.injEq, Prod.mk.injEq] at h
      obtain ⟨h1, h2⟩ := h
      subst h1 h2
      have hs' : ['.', 'f', 'e', 'n'] <:+ name := hs
      first
        | (simp [hs', ho]; done)
        | exact Iff.intro (fun _ => ⟨prog, name, rfl, hs, ho⟩) (fun _ => rfl)
    · rw [hm] at h
      have h0 := printBoard_code name file out code h
      subst h0
      have hs' : ['.', 'f', 'e', 'n'] <:+ name := hs
      first
        | (simp [hs', ho]; done)
        | exact Iff.intro (fun _ => ⟨prog, name, file, rfl, hs, ho⟩) (fun _ => rfl)

set_option maxRecDepth 100000 in
/-- Witness of C15, amended: the file name `a`, shorter than four characters. -/
theorem main_result_codes_witness :
    main ["fen-printer".toList, "a".toList] (fun _ => none) =
      .ok ("ERROR: invalid .fen file.\n".toList, 2) ∧
    (((2 : Int) = 1 ↔ (["fen-printer".toList, "a".toList]).length ≠ 2) ∧
    ((2 : Int) = 2 ↔ ∃ prog name, ["fen-printer".toList, "a".toList] = [prog, name] ∧ ¬ ".fen".toList <:+ name) ∧
    ((2 : Int) = 3 ↔ ∃ prog name, ["fen-printer".toList, "a".toList] = [prog, name] ∧ ".fen".toList <:+ name ∧
      (fun _ => none : List Char → Option (List Char)) name = none) ∧
    ((2 : Int) = 0 ↔ ∃ prog name file, ["fen-printer".toList, "a".toList] = [prog, name] ∧ ".fen".toList <:+ name ∧
      (fun _ => none : List Char → Option (List Char)) name = some file) ∧
    ((2 : Int) = 1 → "ERROR: invalid .fen file.\n".toList = "usage: ./fen-printer fen_file.fen\n".toList) ∧
    ((2 : Int) = 2 → "ERROR: invalid .fen file.\n".toList = "ERROR: invalid .fen file.\n".toList) ∧
    ((2 : Int) = 3 → "ERROR: invalid .fen file.\n".toList = "ERROR: could not open file.\n".toList) ∧
    (∀ (args : List (List Char)) (fo : List Char → Option (List Char)), args.length ≠ 2 →
      main args fo = .ok ("usage: ./fen-printer fen_file.fen\n".toList, 1)) ∧
    (∀ (prog name : List Char) (fo : List Char → Option (List Char)),
      ¬ ".fen".toList <:+ name →
      main [prog, name] fo = .ok ("ERROR: invalid .fen file.\n".toList, 2)) ∧
    (∀ (prog name : List Char) (fo : List Char → Option (List Char)),
      ".fen".toList <:+ name → fo name = none →
      main [prog, name] fo = .ok ("ERROR: could not open file.\n".toList, 3)) ∧
    (∀ (prog name field rest : List Char) (fo : List Char → Option (List Char)),
      ".fen".toList <:+ name → fo name = some (field ++ ' ' :: rest) →
      field.length ≤ 71 → (∀ c ∈ field, c ≠ ' ') → (∀ c ∈ field, c ≠ '\x00') →
      (∀ c ∈ field, c.toNat < 256) →
      main [prog, name] fo =
        .ok ("\n".toList ++ name ++ "\n".toList ++ dashes ++
          (renderTokens field ++ "|\n".toList) ++ dashes, 0)) ∧
    (∀ (prog name file : List Char) (fo : List Char → Option (List Char)),
      ".fen".toList <:+ name → fo name = some file →
      (∀ c ∈ file, c ≠ ' ') → (∀ c ∈ file, c.toNat < 256) →
      main [prog, name] fo = .error (.outOfBounds 72)) ∧
    (∀ (prog name field rest : List Char) (fo : List Char → Option (List Char)),
      ".fen".toList <:+ name → fo name = some (field ++ ' ' :: rest) →
      73 ≤ field.length → (∀ c ∈ field, c ≠ ' ') → (∀ c ∈ field, c.toNat < 256) →
      main [prog, name] fo = .error (.outOfBounds 72))) :=
  ⟨by decide, main_result_codes ["fen-printer".toList, "a".toList] (fun _ => none)
    "ERROR: invalid .fen file.\n".toList 2 (by decide)⟩

/-- C16: for every rank descriptor made only of letters and digits `0` to `9`, held in
a buffer with a zero byte after it, the rank line rendered (the cells and the
closing `|`, before the newline) has length exactly 3 times the number of its
letters plus the sum of its digit values, plus 1; so the line is 25
characters long if and only if the descriptor stands for 8 squares. -/
theorem rank_line_length (r tail : List Char)
    (h : ∀ c ∈ r, isalpha c = true ∨ isdigit c = true) :
    ∃ line : List Char,
      render (r ++ '\x00' :: tail) = .ok (line ++ ['\n']) ∧
      line.length = 3 * rankSquares r + 1 ∧
      (line.length = 25 ↔ rankSquares r = 8) := by
  have hlen : (renderTokens r ++ ['|']).length = 3 * rankSquares r + 1 := by
    rw [rank_line r h, lineText_length, rankCells_length]
  refine ⟨renderTokens r ++ ['|'], ?_, hlen, ?_⟩
  · rw [render_nul r tail (fun c hc => (fieldChar_ok c (Or.inr (h c hc))).2.1)]
    simp
  · rw [hlen]
    omega

set_option maxRecDepth 100000 in
/-- Witness of C16: the descriptor `k9`, of ten squares. -/
theorem rank_line_length_witness :
    rankSquares "k9".toList = 10 ∧
    render ("k9".toList ++ '\x00' :: []) = .ok "|bK|  |  |  |  |  |  |  |  |  |\n".toList ∧
    ∃ line : List Char,
      render ("k9".toList ++ '\x00' :: []) = .ok (line ++ ['\n']) ∧
      line.length = 3 * rankSquares "k9".toList + 1 ∧
      (line.length = 25 ↔ rankSquares "k9".toList = 8) :=
  ⟨by decide, by decide, rank_line_length "k9".toList [] (by decide)⟩

set_option maxRecDepth 100000 in
/-- C17: rendering loses the run-length encoding and nothing else.  For all fields `f`
and `g` made of letters, digits and `/`, each held in a buffer with a zero
byte after it, the render loop prints the same text for both if and only if
they expand to the same sequence of squares and rank breaks (a digit replaced
by that many empty squares, a letter by its colour and uppercased letter);
for fields of at most 71 characters the same holds of the program's output.
The fields `8` and `44` render alike. -/
theorem rendering_loses_only_run_lengths (f g t1 t2 : List Char)
    (hf : ∀ c ∈ f, c = '/' ∨ isalpha c = true ∨ isdigit c = true)
    (hg : ∀ c ∈ g, c = '/' ∨ isalpha c = true ∨ isdigit c = true) :
    (render (f ++ '\x00' :: t1) = render (g ++ '\x00' :: t2) ↔ expand f = expand g) ∧
    (f.length ≤ 71 → g.length ≤ 71 → ∀ file_name r1 r2 : List Char,
      (printBoard file_name (f ++ ' ' :: r1) = printBoard file_name (g ++ ' ' :: r2) ↔
        expand f = expand g)) ∧
    render ("8".toList ++ '\x00' :: t1) = render ("44".toList ++ '\x00' :: t2) ∧
    expand "8".toList = expand "44".toList := by
  have key := renderTokens_eq_iff f g hf hg
  refine ⟨?_, ?_, ?_, by decide⟩
  · rw [render_nul f t1 (fun c hc => (fieldChar_ok c (hf c hc)).2.1),
      render_nul g t2 (fun c hc => (fieldChar_ok c (hg c hc)).2.1), ← key]
    simp
  · intro hlf hlg file_name r1 r2
    rw [printBoard_field file_name f r1 hlf (fun c hc => (fieldChar_ok c (hf c hc)).1)
        (fun c hc => (fieldChar_ok c (hf c hc)).2.1) (fun c hc => (fieldChar_ok c (hf c hc)).2.2),
      printBoard_field file_name g r2 hlg (fun c hc => (fieldChar_ok c (hg c hc)).1)
        (fun c hc => (fieldChar_ok c (hg c hc)).2.1) (fun c hc => (fieldChar_ok c (hg c hc)).2.2),
      ← key]
    simp
  · rw [render_nul _ t1 (by decide), render_nul _ t2 (by decide)]
    have e : renderTokens "8".toList = renderTokens "44".toList := by decide
    rw [e]

set_option maxRecDepth 100000 in
/-- Witness of C17: the fields `3p4/8` and `12P22/8`, that differ in a colour. -/
theorem rendering_loses_only_run_lengths_witness :
    expand "3p4/8".toList ≠ expand "12P22/8".toList ∧
    ((render ("3p4/8".toList ++ '\x00' :: []) = render ("12P22/8".toList ++ '\x00' :: []) ↔
      expand "3p4/8".toList = expand "12P22/8".toList) ∧
    (("3p4/8".toList).length ≤ 71 → ("12P22/8".toList).length ≤ 71 →
      ∀ file_name r1 r2 : List Char,
      (printBoard file_name ("3p4/8".toList ++ ' ' :: r1) =
          printBoard file_name ("12P22/8".toList ++ ' ' :: r2) ↔
        expand "3p4/8".toList = expand "12P22/8".toList)) ∧
    render ("8".toList ++ '\x00' :: []) = render ("44".toList ++ '\x00' :: []) ∧
    expand "8".toList = expand "44".toList) :=
  ⟨by decide, rendering_loses_only_run_lengths "3p4/8".toList "12P22/8".toList [] []
    (by decide) (by decide)⟩

set_option maxRecDepth 100000 in
/-- C18: every character other than the zero byte that is neither a letter nor a digit
is rendered exactly like the separator `/`: it prints `|` and a newline, which
closes the current rank line and starts a new one.  So for every field,
replacing each such character by `/` leaves the text printed by the render
loop unchanged, and for a field of at most 71 bytes without space or zero
byte it leaves the program's output unchanged; a newline or a `-` inside the
field adds one rank line. -/
theorem other_characters_render_as_separator (file_name field rest tail : List Char)
    (hlen : field.length ≤ 71) (hsp : ∀ c ∈ field, c ≠ ' ')
    (hnul : ∀ c ∈ field, c ≠ '\x00') (hb : ∀ c ∈ field, c.toNat < 256) :
    (∀ c : Char, isalpha c = false → isdigit c = false →
      renderToken c = renderToken '/' ∧ renderToken c = "|\n".toList) ∧
    render (field ++ '\x00' :: tail) = render (field.map slashOthers ++ '\x00' :: tail) ∧
    printBoard file_name (field ++ ' ' :: rest) =
      printBoard file_name (field.map slashOthers ++ ' ' :: rest) ∧
    render ("4\n4".toList ++ '\x00' :: tail) =
      .ok "|  |  |  |  |\n|  |  |  |  |\n".toList ∧
    render ("4-4".toList ++ '\x00' :: tail) =
      .ok "|  |  |  |  |\n|  |  |  |  |\n".toList ∧
    render ("44".toList ++ '\x00' :: tail) = .ok "|  |  |  |  |  |  |  |  |\n".toList := by
  have hmap : ∀ c ∈ field.map slashOthers,
      c ≠ ' ' ∧ c ≠ '\x00' ∧ c.toNat < 256 := by
    intro c hc
    obtain ⟨d, hd, rfl⟩ := List.mem_map.mp hc
    exact slashOthers_ok d (hsp d hd) (hnul d hd) (hb d hd)
  refine ⟨?_, ?_, ?_, ?_, ?_, ?_⟩
  · intro c ha hd
    rw [renderToken_slash]
    exact ⟨renderToken_other c ha hd, renderToken_other c ha hd⟩
  · rw [render_nul field tail hnul, render_nul _ tail (fun c hc => (hmap c hc).2.1),
      renderTokens_slashOthers]
  · rw [printBoard_field file_name field rest hlen hsp hnul hb,
      printBoard_field file_name _ rest (by rw [List.length_map]; exact hlen)
        (fun c hc => (hmap c hc).1) (fun c hc => (hmap c hc).2.1)
        (fun c hc => (hmap c hc).2.2),
      renderTokens_slashOthers]
  · rw [render_nul _ tail (by decide)]
    have e : renderTokens "4\n4".toList ++ "|\n".toList =
        "|  |  |  |  |\n|  |  |  |  |\n".toList := by decide
    rw [e]
  · rw [render_nul _ tail (by decide)]
    have e : renderTokens "4-4".toList ++ "|\n".toList =
        "|  |  |  |  |\n|  |  |  |  |\n".toList := by decide
    rw [e]
  · rw [render_nul _ tail (by decide)]
    have e : renderTokens "44".toList ++ "|\n".toList =
        "|  |  |  |  |  |  |  |  |\n".toList := by decide
    rw [e]

set_option maxRecDepth 100000 in
/-- Witness of C18: the field `4-4?k`, in which `-` and `?` are replaced by `/`. -/
theorem other_characters_render_as_separator_witness :
    "4-4?k".toList.map slashOthers = "4/4/k".toList ∧
    ((∀ c : Char, isalpha c = false → isdigit c = false →
      renderToken c = renderToken '/' ∧ renderToken c = "|\n".toList) ∧
    render ("4-4?k".toList ++ '\x00' :: []) =
      render ("4-4?k".toList.map slashOthers ++ '\x00' :: []) ∧
    printBoard "a.fen".toList ("4-4?k".toList ++ ' ' :: "w".toList) =
      printBoard "a.fen".toList ("4-4?k".toList.map slashOthers ++ ' ' :: "w".toList) ∧
    render ("4\n4".toList ++ '\x00' :: []) =
      .ok "|  |  |  |  |\n|  |  |  |  |\n".toList ∧
    render ("4-4".toList ++ '\x00' :: []) =
      .ok "|  |  |  |  |\n|  |  |  |  |\n".toList ∧
    render ("44".toList ++ '\x00' :: []) = .ok "|  |  |  |  |  |  |  |  |\n".toList) :=
  ⟨by decide, other_characters_render_as_separator "a.fen".toList "4-4?k".toList "w".toList []
    (by decide) (by decide) (by decide) (by decide)⟩

end FenPrinter
